import Mathlib

/-!
Verification of the ingredient-aggregation core of the shopping-list
application (`src/app.py`): the Ingredient Merger (`merge_ingredients`),
the List Builder (`build_final_list`), the Stock Subtractor
(`subtract_stock`) and the Catalogue Updater
(`add_ingredient_to_catalogue`).

Python dictionaries are modelled as insertion-ordered association lists:
lookup returns the first (and, by construction, only) binding of a key,
`d[k] = v` on a present key replaces the value in place, and binding a
fresh key appends it at the end, exactly as CPython dicts iterate.
Quantities are modelled as integers.
-/

namespace CoursesApp

/-- One ingredient occurrence: the dictionaries
`{"nom", "rayon", "quantite", "unite"}` consumed by `merge_ingredients`. -/
structure Ing where
  nom : String
  rayon : String
  quantite : Int
  unite : String
deriving DecidableEq, Repr

/-- A `(nom, quantite, unite)` triple as stored in section item lists. -/
abbrev Item := String × Int × String

/-- Keys of the working map of `merge_ingredients` and of the stock index:
`(nom.lower() [possibly suffixed], rayon)`. -/
abbrev Key := String × String

/-- A value of the working map `merged` in `merge_ingredients`. -/
structure MEntry where
  rayon : String
  nom : String
  quantite : Int
  unite : String
deriving DecidableEq, Repr

/-- A value of `stock_index` in `subtract_stock`. -/
structure SEntry where
  quantite : Int
  unite : String
deriving DecidableEq, Repr

/-- One section (`rayon`) of the catalogue: `{"nom", "articles"}`. -/
structure Rayon where
  nom : String
  articles : List String
deriving DecidableEq, Repr

/-- Python's `str.lower()`: lowercase every character.  Defined by
structural recursion over the character list so that it evaluates inside
the kernel. -/
def strLower (s : String) : String := ⟨s.data.map Char.toLower⟩

/-- Lexicographic (code-point) strict comparison of character lists, as
Python compares strings. -/
def charsLt : List Char → List Char → Bool
  | [], [] => false
  | [], _ :: _ => true
  | _ :: _, [] => false
  | a :: as, b :: bs => if a < b then true else if b < a then false else charsLt as bs

/-- First-match lookup in an association list (`key in d` / `d[key]`). -/
def alookup {α β : Type} [DecidableEq α] : List (α × β) → α → Option β
  | [], _ => none
  | p :: rest, k => if p.1 = k then some p.2 else alookup rest k

/-- In-place update of the value bound to a key (`d[k] = v` on a present
key keeps the binding's position). -/
def aset {α β : Type} [DecidableEq α] (m : List (α × β)) (k : α) (v : β) :
    List (α × β) :=
  m.map (fun p => if p.1 = k then (k, v) else p)

/-- The in-place increment `merged[key]["quantite"] += qty`. -/
def addQty (m : List (Key × MEntry)) (k : Key) (q : Int) :
    List (Key × MEntry) :=
  m.map (fun p =>
    if p.1 = k then (p.1, { p.2 with quantite := p.2.quantite + q }) else p)

/-- The body of the `for ing in ingredients_list` loop of
`merge_ingredients` (`src/app.py` lines 63-91). -/
def mergeStep (m : List (Key × MEntry)) (ing : Ing) : List (Key × MEntry) :=
  let key : Key := (strLower ing.nom, ing.rayon)
  match alookup m key with
  | some e =>
    if e.unite = ing.unite then
      addQty m key ing.quantite
    else
      let altKey : Key := (strLower ing.nom ++ "_" ++ ing.unite, ing.rayon)
      match alookup m altKey with
      | some _ => addQty m altKey ing.quantite
      | none =>
        m ++ [(altKey, ⟨ing.rayon, ing.nom, ing.quantite, ing.unite⟩)]
  | none =>
    m ++ [(key, ⟨ing.rayon, ing.nom, ing.quantite, ing.unite⟩)]

/-- The fully built working map `merged` of `merge_ingredients`. -/
def mergeAll (l : List Ing) : List (Key × MEntry) :=
  l.foldl mergeStep []

/-- `result[rayon].append(item)`, creating `result[rayon] = []` first when
the section is absent (`src/app.py` lines 94-98). -/
def appendItem : List (String × List Item) → String → Item →
    List (String × List Item)
  | [], r, it => [(r, [it])]
  | p :: rest, r, it =>
    if p.1 = r then (p.1, p.2 ++ [it]) :: rest
    else p :: appendItem rest r it

/-- Folding one working-map entry into the grouped result. -/
def groupStep (res : List (String × List Item)) (p : Key × MEntry) :
    List (String × List Item) :=
  appendItem res p.2.rayon (p.2.nom, p.2.quantite, p.2.unite)

/-- Comparison used by `result[rayon].sort(key=lambda x: x[0].lower())`:
a stable sort by the lowercased name (`a` may go before `b` exactly when
`b`'s key is not strictly smaller). -/
def itemLe (a b : Item) : Prop :=
  charsLt (strLower b.1).data (strLower a.1).data = false

instance : DecidableRel itemLe := fun a b =>
  inferInstanceAs
    (Decidable (charsLt (strLower b.1).data (strLower a.1).data = false))

/-- `merge_ingredients` (`src/app.py` lines 57-104): deduplicate and
accumulate occurrences, then group by section and sort each section's
entries by lowercased name. -/
def merge_ingredients (ingredients_list : List Ing) :
    List (String × List Item) :=
  let merged := mergeAll ingredients_list
  let result := merged.foldl groupStep []
  result.map (fun p => (p.1, List.insertionSort itemLe p.2))

/-- The fixed canonical section ordering of `build_final_list`. -/
def rayon_order : List String :=
  ["BOULANGERIE", "LÉGUMES", "FRUITS", "AIL & FINES HERBES",
   "CHARCUTERIE", "TRAITEUR", "POISSONNERIE", "BOUCHERIE",
   "SURGELÉS", "FROMAGES", "YAOURTS", "PRODUITS LAITIERS",
   "ÉPICERIE SALÉE", "CUISINE DU MONDE", "ÉPICERIE SUCRÉE",
   "BOISSONS", "NOURRITURE BÉBÉ", "HYGIÈNE & DIVERS"]

/-- Flattening one section→items grouping back into occurrence records
(the two symmetric loops of `build_final_list`). -/
def flattenGroup (g : List (String × List Item)) : List Ing :=
  g.foldl (fun acc p =>
    acc ++ p.2.map (fun it =>
      { nom := it.1, rayon := p.1, quantite := it.2.1, unite := it.2.2 })) []

/-- `build_final_list` (`src/app.py` lines 116-149): flatten both
groupings, re-merge, then emit canonical sections in `rayon_order`
followed by the remaining sections sorted alphabetically. -/
def build_final_list (recipe_items_by_rayon free_items_by_rayon :
    List (String × List Item)) : List (String × List Item) :=
  let all_items := flattenGroup recipe_items_by_rayon ++
    flattenGroup free_items_by_rayon
  let merged := merge_ingredients all_items
  let inOrder := rayon_order.foldl (fun acc r =>
    match alookup merged r with
    | some items => acc ++ [(r, items)]
    | none => acc) []
  let rest := List.insertionSort (fun a b : String => a ≤ b)
    ((merged.map Prod.fst).filter (fun r => decide (r ∉ rayon_order)))
  inOrder ++ rest.foldl (fun acc r =>
    match alookup merged r with
    | some items => acc ++ [(r, items)]
    | none => acc) []

/-- The body of the stock-indexing loop of `subtract_stock`
(`src/app.py` lines 159-168). -/
def stockStep (idx : List (Key × SEntry)) (rayon : String) (it : Item) :
    List (Key × SEntry) :=
  let key : Key := (strLower it.1, rayon)
  match alookup idx key with
  | some st =>
    if st.unite = it.2.2 then
      aset idx key ⟨st.quantite + it.2.1, st.unite⟩
    else
      aset idx key ⟨it.2.1, it.2.2⟩
  | none => idx ++ [(key, ⟨it.2.1, it.2.2⟩)]

/-- `stock_index` of `subtract_stock`: stock keyed by
`(nom.lower(), rayon)`. -/
def buildStockIndex (stock_items : List (String × List Item)) :
    List (Key × SEntry) :=
  stock_items.foldl (fun idx p => p.2.foldl (fun idx it => stockStep idx p.1 it) idx) []

/-- The body of the `for nom, qty, unite in items` loop of
`subtract_stock` (`src/app.py` lines 173-186). -/
def subtractItemStep (idx : List (Key × SEntry)) (rayon : String)
    (acc : List Item) (it : Item) : List Item :=
  match alookup idx (strLower it.1, rayon) with
  | some st =>
    if st.unite = it.2.2 then
      let remaining := it.2.1 - st.quantite
      if remaining > 0 then acc ++ [(it.1, remaining, it.2.2)] else acc
    else acc ++ [it]
  | none => acc ++ [it]

/-- The body of the `for rayon, items in final_list.items()` loop of
`subtract_stock` (`src/app.py` lines 171-188). -/
def subtractSectionStep (idx : List (Key × SEntry))
    (result : List (String × List Item)) (p : String × List Item) :
    List (String × List Item) :=
  let new_items := p.2.foldl (subtractItemStep idx p.1) []
  if new_items.isEmpty then result else result ++ [(p.1, new_items)]

/-- `subtract_stock` (`src/app.py` lines 152-190): index the stock, then
filter every section of the built list item by item, dropping sections
that end up empty. -/
def subtract_stock (final_list stock_items : List (String × List Item)) :
    List (String × List Item) :=
  final_list.foldl (subtractSectionStep (buildStockIndex stock_items)) []

/-- Comparison used by `rayon["articles"].sort(key=str.lower)`. -/
def artLe (a b : String) : Prop :=
  charsLt (strLower b).data (strLower a).data = false

instance : DecidableRel artLe := fun a b =>
  inferInstanceAs
    (Decidable (charsLt (strLower b).data (strLower a).data = false))

/-- `add_ingredient_to_catalogue` (`src/app.py` lines 193-204), with the
in-place mutation made explicit: returns the reported flag (`True` =
inserted, `False` = no-op) together with the updated catalogue. -/
def add_ingredient_to_catalogue :
    List Rayon → String → String → Bool × List Rayon
  | [], nom_ingredient, rayon_nom =>
    (true, [⟨rayon_nom, [nom_ingredient]⟩])
  | rayon :: rest, nom_ingredient, rayon_nom =>
    if rayon.nom = rayon_nom then
      if strLower nom_ingredient ∈ rayon.articles.map strLower then
        (false, rayon :: rest)
      else
        (true,
          ⟨rayon.nom, List.insertionSort artLe (rayon.articles ++ [nom_ingredient])⟩ :: rest)
    else
      let r := add_ingredient_to_catalogue rest nom_ingredient rayon_nom
      (r.1, rayon :: r.2)

/-! ## Observables -/

/-- A string containing no underscore.  Lowercased ingredient names of this
form can never collide with the `name.lower() + "_" + unit` secondary keys
of `merge_ingredients`. -/
def udFree (s : String) : Prop := '_' ∉ s.data

instance (s : String) : Decidable (udFree s) :=
  inferInstanceAs (Decidable ('_' ∉ s.data))

/-- All occurrences of the list have underscore-free lowercased names. -/
def GoodL (l : List Ing) : Prop := ∀ i ∈ l, udFree (strLower i.nom)

instance (l : List Ing) : Decidable (GoodL l) :=
  List.decidableBAll _ l

/-- The dedup identity of an occurrence:
(lowercased name, section, unit). -/
def tripleOf (i : Ing) : String × String × String :=
  (strLower i.nom, i.rayon, i.unite)

/-- The dedup identity carried by a working-map entry. -/
def bTriple (p : Key × MEntry) : String × String × String :=
  (strLower p.2.nom, p.2.rayon, p.2.unite)

/-- All items listed under sections named `r` in a grouped result. -/
def itemsOf : List (String × List Item) → String → List Item
  | [], _ => []
  | p :: rest, r => (if p.1 = r then p.2 else []) ++ itemsOf rest r

/-- Total quantity of the items with lowercased name `n` and unit `u`. -/
def sumItems (its : List Item) (n u : String) : Int :=
  (its.map (fun it => if strLower it.1 = n ∧ it.2.2 = u then it.2.1 else 0)).sum

/-- Total output quantity for the combination (lowercased name `n`,
section `r`, unit `u`). -/
def sumOut (res : List (String × List Item)) (n r u : String) : Int :=
  sumItems (itemsOf res r) n u

/-- Total working-map quantity for a dedup identity. -/
def sumBuck (m : List (Key × MEntry)) (n r u : String) : Int :=
  (m.map (fun p => if bTriple p = (n, r, u) then p.2.quantite else 0)).sum

/-- Total input quantity for the combination (lowercased name `n`,
section `r`, unit `u`). -/
def sumIn (l : List Ing) (n r u : String) : Int :=
  (l.map (fun i => if tripleOf i = (n, r, u) then i.quantite else 0)).sum

/-- Number of items with lowercased name `n`. -/
def countItems (its : List Item) (n : String) : Nat :=
  (its.filter (fun it => decide (strLower it.1 = n))).length

/-- Number of output entries for (lowercased name `n`, section `r`). -/
def countOut (res : List (String × List Item)) (n r : String) : Nat :=
  countItems (itemsOf res r) n

/-- The units of the input occurrences with lowercased name `n` in
section `r`, in input order, duplicates included. -/
def unitsIn (l : List Ing) (n r : String) : List String :=
  (l.filter (fun i => decide (strLower i.nom = n ∧ i.rayon = r))).map Ing.unite

/-- Number of distinct units among the input occurrences with lowercased
name `n` in section `r`. -/
def unitCount (l : List Ing) (n r : String) : Nat :=
  (unitsIn l n r).dedup.length

/-- Grand total of all input quantities. -/
def totalIn (l : List Ing) : Int := (l.map Ing.quantite).sum

/-- Grand total of all working-map quantities. -/
def totalBuck (m : List (Key × MEntry)) : Int :=
  (m.map (fun p => p.2.quantite)).sum

/-- Grand total of all quantities of a grouped result. -/
def totalOut (res : List (String × List Item)) : Int :=
  (res.map (fun p => (p.2.map (fun it => it.2.1)).sum)).sum

/-- The output item a working-map entry turns into. -/
def projItem (p : Key × MEntry) : Item := (p.2.nom, p.2.quantite, p.2.unite)

/-- The working-map entries belonging to section `r`. -/
def bucketsOf (m : List (Key × MEntry)) (r : String) : List (Key × MEntry) :=
  m.filter (fun p => decide (p.2.rayon = r))

/-- An item with its display name lowercased (case-insensitive view). -/
def lowItem (it : Item) : String × Int × String := (strLower it.1, it.2.1, it.2.2)

/-- Some section named `r` is present in the grouped result. -/
def sectionMem (res : List (String × List Item)) (r : String) : Prop :=
  ∃ its, (r, its) ∈ res

/-! ## String separator lemmas -/

theorem sep_chars_inj : ∀ (a b u v : List Char), '_' ∉ a → '_' ∉ b →
    a ++ '_' :: u = b ++ '_' :: v → a = b ∧ u = v
  | [], [], _, _, _, _, h => ⟨rfl, by injection h⟩
  | [], c :: b, _, _, _, hb, h => by
    simp only [List.nil_append, List.cons_append, List.cons.injEq] at h
    exact absurd (h.1 ▸ List.mem_cons_self c b) hb
  | c :: a, [], _, _, ha, _, h => by
    simp only [List.nil_append, List.cons_append, List.cons.injEq] at h
    exact absurd (h.1.symm ▸ List.mem_cons_self c a) ha
  | c :: a, d :: b, u, v, ha, hb, h => by
    simp only [List.cons_append, List.cons.injEq] at h
    have := sep_chars_inj a b u v (fun m => ha (List.mem_cons_of_mem c m))
      (fun m => hb (List.mem_cons_of_mem d m)) h.2
    exact ⟨by rw [h.1, this.1], this.2⟩

/-- Two underscore-free prefixes followed by `"_" ++ unit` agree exactly
when prefixes and suffixes agree. -/
theorem sep_inj {n n' u u' : String} (hn : udFree n) (hn' : udFree n')
    (h : n ++ "_" ++ u = n' ++ "_" ++ u') : n = n' ∧ u = u' := by
  have hd : n.data ++ '_' :: u.data = n'.data ++ '_' :: u'.data := by
    have := congrArg String.data h
    simpa [String.data_append] using this
  obtain ⟨h1, h2⟩ := sep_chars_inj _ _ _ _ hn hn' hd
  exact ⟨String.ext h1, String.ext h2⟩

/-- An underscore-free string never equals a suffixed secondary key. -/
theorem sep_ne {n a u : String} (hn : udFree n) : n ≠ a ++ "_" ++ u := by
  intro h
  apply hn
  rw [h]
  simp [String.data_append]

/-! ## Association-list lemmas -/

theorem alookup_append_some {α β : Type} [DecidableEq α]
    {m m' : List (α × β)} {k : α} {v : β} (h : alookup m k = some v) :
    alookup (m ++ m') k = some v := by
  induction m with
  | nil => simp [alookup] at h
  | cons p rest ih =>
    rw [List.cons_append]
    by_cases hk : p.1 = k
    · rw [alookup, if_pos hk]
      rw [alookup, if_pos hk] at h
      exact h
    · rw [alookup, if_neg hk]
      rw [alookup, if_neg hk] at h
      exact ih h

theorem alookup_append_none {α β : Type} [DecidableEq α]
    {m : List (α × β)} (m' : List (α × β)) {k : α}
    (h : alookup m k = none) : alookup (m ++ m') k = alookup m' k := by
  induction m with
  | nil => simp [alookup]
  | cons p rest ih =>
    rw [List.cons_append]
    by_cases hk : p.1 = k
    · rw [alookup, if_pos hk] at h
      exact absurd h (by simp)
    · rw [alookup, if_neg hk]
      rw [alookup, if_neg hk] at h
      exact ih h

theorem alookup_eq_none_iff {α β : Type} [DecidableEq α]
    {m : List (α × β)} {k : α} :
    alookup m k = none ↔ ∀ p ∈ m, p.1 ≠ k := by
  induction m with
  | nil => simp [alookup]
  | cons p rest ih =>
    by_cases hk : p.1 = k
    · simp [alookup, hk]
    · simp [alookup, hk, ih]

theorem alookup_mem {α β : Type} [DecidableEq α]
    {m : List (α × β)} {k : α} {v : β} (h : alookup m k = some v) :
    (k, v) ∈ m := by
  induction m with
  | nil => simp [alookup] at h
  | cons p rest ih =>
    rcases p with ⟨a, b⟩
    by_cases hk : a = k
    · subst hk
      simp [alookup] at h
      subst h
      exact List.mem_cons_self _ _
    · rw [alookup] at h
      rw [if_neg (by simpa using hk)] at h
      exact List.mem_cons_of_mem _ (ih h)

theorem alookup_of_mem_nodup {α β : Type} [DecidableEq α]
    {m : List (α × β)} {k : α} {v : β}
    (hnd : (m.map Prod.fst).Nodup) (h : (k, v) ∈ m) :
    alookup m k = some v := by
  induction m with
  | nil => simp at h
  | cons p rest ih =>
    simp only [List.map_cons, List.nodup_cons] at hnd
    rcases List.mem_cons.1 h with h | h
    · rw [← h]
      simp [alookup]
    · have hk : p.1 ≠ k := by
        intro hpk
        exact hnd.1 (hpk ▸ (List.mem_map.2 ⟨(k, v), h, rfl⟩))
      simp only [alookup, hk, if_false]
      exact ih hnd.2 h

theorem eq_of_mem_nodup_keys {α β : Type} [DecidableEq α]
    {m : List (α × β)} {p q : α × β}
    (hnd : (m.map Prod.fst).Nodup) (hp : p ∈ m) (hq : q ∈ m)
    (h : p.1 = q.1) : p = q := by
  have h1 : alookup m p.1 = some p.2 := alookup_of_mem_nodup hnd (by
    rcases p with ⟨a, b⟩; exact hp)
  have h2 : alookup m q.1 = some q.2 := alookup_of_mem_nodup hnd (by
    rcases q with ⟨a, b⟩; exact hq)
  rw [h] at h1
  rw [h1] at h2
  rcases p with ⟨a, b⟩
  rcases q with ⟨c, d⟩
  simp only at h
  simp only [Option.some.injEq] at h2
  rw [Prod.mk.injEq]
  exact ⟨h, h2⟩

theorem alookup_aset_self {α β : Type} [DecidableEq α]
    {m : List (α × β)} {k : α} {v : β} (w : β)
    (h : alookup m k = some v) :
    alookup (aset m k w) k = some w := by
  induction m with
  | nil => simp [alookup] at h
  | cons p rest ih =>
    by_cases hk : p.1 = k
    · simp [alookup, aset, hk]
    · simp only [alookup, hk, if_false] at h
      simpa [alookup, aset, hk] using ih h

theorem alookup_aset_ne {α β : Type} [DecidableEq α]
    {m : List (α × β)} {k k' : α} {w : β} (h : k' ≠ k) :
    alookup (aset m k w) k' = alookup m k' := by
  induction m with
  | nil => simp [alookup, aset]
  | cons p rest ih =>
    by_cases hk : p.1 = k
    · simpa [alookup, aset, hk, h, Ne.symm h] using ih
    · by_cases hk' : p.1 = k'
      · simp [alookup, aset, hk, hk', h]
      · simpa [alookup, aset, hk, hk', h] using ih

theorem addQty_map_fst (m : List (Key × MEntry)) (k : Key) (q : Int) :
    (addQty m k q).map Prod.fst = m.map Prod.fst := by
  induction m with
  | nil => rfl
  | cons p rest ih =>
    by_cases hk : p.1 = k <;> simp [addQty, hk] at ih ⊢ <;> exact ih

theorem addQty_of_not_mem {m : List (Key × MEntry)} {k : Key} (q : Int)
    (h : ∀ p ∈ m, p.1 ≠ k) : addQty m k q = m := by
  induction m with
  | nil => rfl
  | cons p rest ih =>
    have hk : p.1 ≠ k := h p (List.mem_cons_self p rest)
    have ht := ih (fun p hp => h p (List.mem_cons_of_mem _ hp))
    simp only [addQty, List.map_cons, if_neg hk]
    simp only [addQty] at ht
    rw [ht]

theorem alookup_addQty_ne {m : List (Key × MEntry)} {k k' : Key} {q : Int}
    (h : k' ≠ k) : alookup (addQty m k q) k' = alookup m k' := by
  induction m with
  | nil => simp [alookup, addQty]
  | cons p rest ih =>
    by_cases hk : p.1 = k
    · simpa [alookup, addQty, hk, h, Ne.symm h] using ih
    · by_cases hk' : p.1 = k'
      · simp [alookup, addQty, hk, hk', h]
      · simpa [alookup, addQty, hk, hk', h] using ih

theorem alookup_addQty_self {m : List (Key × MEntry)} {k : Key} {q : Int}
    {e : MEntry} (h : alookup m k = some e) :
    alookup (addQty m k q) k =
      some { e with quantite := e.quantite + q } := by
  induction m with
  | nil => simp [alookup] at h
  | cons p rest ih =>
    by_cases hk : p.1 = k
    · simp only [alookup, hk, if_true, Option.some.injEq] at h
      simp [alookup, addQty, hk, h]
    · simp only [alookup, hk, if_false] at h
      simpa [alookup, addQty, hk] using ih h

/-! ## Step lemmas for the working map -/

/-- A dedup identity is represented in the working map. -/
def tripleMemB (m : List (Key × MEntry)) (t : String × String × String) :
    Prop := ∃ p ∈ m, bTriple p = t

/-- A dedup identity occurs in the input list. -/
def tripleMemI (l : List Ing) (t : String × String × String) : Prop :=
  ∃ i ∈ l, tripleOf i = t

theorem bTriple_addQtyF (k : Key) (q : Int) (p : Key × MEntry) :
    bTriple (if p.1 = k then
      (p.1, { p.2 with quantite := p.2.quantite + q }) else p) = bTriple p := by
  by_cases hpk : p.1 = k <;> simp [bTriple, hpk]

theorem tripleMemB_addQty {m : List (Key × MEntry)} {k : Key} {q : Int}
    {t : String × String × String} :
    tripleMemB (addQty m k q) t ↔ tripleMemB m t := by
  constructor
  · rintro ⟨p', hp', ht⟩
    rcases List.mem_map.1 hp' with ⟨p, hp, hfp⟩
    exact ⟨p, hp, by rw [← ht, ← hfp, bTriple_addQtyF]⟩
  · rintro ⟨p, hp, ht⟩
    refine ⟨_, List.mem_map.2 ⟨p, hp, rfl⟩, ?_⟩
    rw [bTriple_addQtyF]
    exact ht

theorem tripleMemB_append_one {m : List (Key × MEntry)} {p : Key × MEntry}
    {t : String × String × String} :
    tripleMemB (m ++ [p]) t ↔ tripleMemB m t ∨ bTriple p = t := by
  simp only [tripleMemB, List.mem_append, List.mem_singleton]
  constructor
  · rintro ⟨p', hp' | hp', ht⟩
    · exact Or.inl ⟨p', hp', ht⟩
    · exact Or.inr (hp' ▸ ht)
  · rintro (⟨p', hp', ht⟩ | ht)
    · exact ⟨p', Or.inl hp', ht⟩
    · exact ⟨p, Or.inr rfl, ht⟩

theorem tripleMemI_append_one {l : List Ing} {c : Ing}
    {t : String × String × String} :
    tripleMemI (l ++ [c]) t ↔ tripleMemI l t ∨ tripleOf c = t := by
  simp only [tripleMemI, List.mem_append, List.mem_singleton]
  constructor
  · rintro ⟨i, hi | hi, ht⟩
    · exact Or.inl ⟨i, hi, ht⟩
    · exact Or.inr (hi ▸ ht)
  · rintro (⟨i, hi, ht⟩ | ht)
    · exact ⟨i, Or.inl hi, ht⟩
    · exact ⟨c, Or.inr rfl, ht⟩

theorem sumIn_append_one (l : List Ing) (c : Ing) (n r u : String) :
    sumIn (l ++ [c]) n r u =
      sumIn l n r u + (if tripleOf c = (n, r, u) then c.quantite else 0) := by
  simp [sumIn]

theorem sumBuck_append_one (m : List (Key × MEntry)) (p : Key × MEntry)
    (n r u : String) :
    sumBuck (m ++ [p]) n r u =
      sumBuck m n r u + (if bTriple p = (n, r, u) then p.2.quantite else 0) := by
  simp [sumBuck]

theorem sumBuck_addQty {m : List (Key × MEntry)} {k : Key} {e : MEntry}
    (q : Int) (n r u : String)
    (hnd : (m.map Prod.fst).Nodup) (he : alookup m k = some e) :
    sumBuck (addQty m k q) n r u =
      sumBuck m n r u + (if bTriple (k, e) = (n, r, u) then q else 0) := by
  induction m with
  | nil => simp [alookup] at he
  | cons p rest ih =>
    simp only [List.map_cons, List.nodup_cons] at hnd
    by_cases hk : p.1 = k
    · rw [alookup, if_pos hk] at he
      have hep : e = p.2 := by injection he with h; exact h.symm
      subst hep
      have hrest : ∀ p' ∈ rest, p'.1 ≠ k := by
        intro p' hp' hpk
        exact hnd.1 (hk ▸ hpk ▸ List.mem_map.2 ⟨p', hp', rfl⟩)
      have haq : addQty rest k q = rest := addQty_of_not_mem q hrest
      simp only [addQty, List.map_cons, if_pos hk]
      simp only [addQty] at haq
      rw [haq]
      have hbt : bTriple (p.1, { p.2 with quantite := p.2.quantite + q }) =
          bTriple p := by simp [bTriple]
      have hke : bTriple (k, p.2) = bTriple p := by simp [bTriple]
      simp only [sumBuck, List.map_cons, List.sum_cons, hbt, hke]
      by_cases ht : bTriple p = (n, r, u) <;>
        simp only [ht, if_true, if_false] <;> ring
    · rw [alookup, if_neg hk] at he
      have hih := ih hnd.2 he
      simp only [addQty, List.map_cons, if_neg hk]
      simp only [addQty] at hih
      simp only [sumBuck, List.map_cons, List.sum_cons] at hih ⊢
      rw [hih]
      ring

theorem totalIn_append_one (l : List Ing) (c : Ing) :
    totalIn (l ++ [c]) = totalIn l + c.quantite := by
  simp [totalIn]

theorem totalBuck_append_one (m : List (Key × MEntry)) (p : Key × MEntry) :
    totalBuck (m ++ [p]) = totalBuck m + p.2.quantite := by
  simp [totalBuck]

theorem totalBuck_addQty {m : List (Key × MEntry)} {k : Key} {e : MEntry}
    (q : Int) (hnd : (m.map Prod.fst).Nodup) (he : alookup m k = some e) :
    totalBuck (addQty m k q) = totalBuck m + q := by
  induction m with
  | nil => simp [alookup] at he
  | cons p rest ih =>
    simp only [List.map_cons, List.nodup_cons] at hnd
    by_cases hk : p.1 = k
    · have hrest : ∀ p' ∈ rest, p'.1 ≠ k := by
        intro p' hp' hpk
        exact hnd.1 (hk ▸ hpk ▸ List.mem_map.2 ⟨p', hp', rfl⟩)
      have haq : addQty rest k q = rest := addQty_of_not_mem q hrest
      simp only [addQty, List.map_cons, if_pos hk]
      simp only [addQty] at haq
      rw [haq]
      simp only [totalBuck, List.map_cons, List.sum_cons]
      ring
    · rw [alookup, if_neg hk] at he
      have hih := ih hnd.2 he
      simp only [addQty, List.map_cons, if_neg hk]
      simp only [addQty] at hih
      simp only [totalBuck, List.map_cons, List.sum_cons] at hih ⊢
      rw [hih]
      ring

theorem goodL_append_one {l : List Ing} {c : Ing} :
    GoodL (l ++ [c]) ↔ GoodL l ∧ udFree (strLower c.nom) := by
  constructor
  · intro h
    exact ⟨fun i hi => h i (List.mem_append_left _ hi),
      h c (List.mem_append_right _ (List.mem_singleton_self c))⟩
  · rintro ⟨h1, h2⟩ i hi
    rcases List.mem_append.1 hi with hi | hi
    · exact h1 i hi
    · rw [List.mem_singleton.1 hi]
      exact h2

/-! ## The merge invariant (underscore-free names) -/

theorem nodup_keys_snoc {α β : Type} [DecidableEq α]
    {m : List (α × β)} {k : α} (v : β)
    (hnd : (m.map Prod.fst).Nodup) (h : alookup m k = none) :
    ((m ++ [(k, v)]).map Prod.fst).Nodup := by
  rw [List.map_append]
  refine List.Nodup.append hnd (List.nodup_singleton k) ?_
  intro a ha hb
  rcases List.mem_map.1 ha with ⟨p, hp, rfl⟩
  rw [List.map_cons, List.map_nil, List.mem_singleton] at hb
  exact (alookup_eq_none_iff.1 h) p hp hb

theorem alookup_addQty_unite {m : List (Key × MEntry)} {k k' : Key}
    {q : Int} {e0 : MEntry} (h : alookup m k' = some e0) :
    ∃ e1, alookup (addQty m k q) k' = some e1 ∧ e1.unite = e0.unite := by
  by_cases hk : k' = k
  · subst hk
    exact ⟨_, alookup_addQty_self h, rfl⟩
  · exact ⟨e0, by rw [alookup_addQty_ne hk]; exact h, rfl⟩

/-- The invariant tying the working map of `merge_ingredients` to the
processed prefix of the input, for inputs whose lowercased names are
underscore-free: keys are unique, each entry sits either at its primary
key or at its unit-suffixed secondary key, a secondary key is only ever
created next to a primary entry of a different unit, and per-identity
quantities and identity membership agree with the input. -/
structure HInv (l : List Ing) (m : List (Key × MEntry)) : Prop where
  nodup : (m.map Prod.fst).Nodup
  shape : ∀ p ∈ m, p.2.rayon = p.1.2 ∧ udFree (strLower p.2.nom) ∧
    (p.1.1 = strLower p.2.nom ∨ p.1.1 = strLower p.2.nom ++ "_" ++ p.2.unite)
  altMain : ∀ p ∈ m, ∀ n u : String, udFree n →
    p.1 = (n ++ "_" ++ u, p.2.rayon) →
    ∃ e, alookup m (n, p.2.rayon) = some e ∧ e.unite ≠ u
  sums : ∀ n r u : String, sumBuck m n r u = sumIn l n r u
  mems : ∀ t, tripleMemB m t ↔ tripleMemI l t

theorem hinv_nil : HInv [] [] := by
  refine ⟨List.nodup_nil, ?_, ?_, ?_, ?_⟩
  · intro p hp; simp at hp
  · intro p hp; simp at hp
  · intro n r u; simp [sumBuck, sumIn]
  · intro t; simp [tripleMemB, tripleMemI]

theorem hinv_bump {l : List Ing} {m : List (Key × MEntry)}
    (inv : HInv l m) {c : Ing} {k : Key} {e : MEntry}
    (he : alookup m k = some e) (ht : bTriple (k, e) = tripleOf c) :
    HInv (l ++ [c]) (addQty m k c.quantite) := by
  refine ⟨?_, ?_, ?_, ?_, ?_⟩
  · rw [addQty_map_fst]
    exact inv.nodup
  · intro p' hp'
    rcases List.mem_map.1 hp' with ⟨p, hp, rfl⟩
    have hs := inv.shape p hp
    by_cases hpk : p.1 = k <;> simpa [hpk] using hs
  · intro p' hp' n' u' hn' hkey
    rcases List.mem_map.1 hp' with ⟨p, hp, rfl⟩
    have hk1 : (if p.1 = k then
        (p.1, { p.2 with quantite := p.2.quantite + c.quantite })
        else p).1 = p.1 := by
      by_cases hpk : p.1 = k <;> simp [hpk]
    have hk2 : (if p.1 = k then
        (p.1, { p.2 with quantite := p.2.quantite + c.quantite })
        else p).2.rayon = p.2.rayon := by
      by_cases hpk : p.1 = k <;> simp [hpk]
    rw [hk1, hk2] at hkey
    rw [hk2]
    obtain ⟨e0, hl, hu⟩ := inv.altMain p hp n' u' hn' hkey
    obtain ⟨e1, hl1, hu1⟩ := alookup_addQty_unite hl
    exact ⟨e1, hl1, hu1 ▸ hu⟩
  · intro n r u
    rw [sumBuck_addQty c.quantite n r u inv.nodup he, sumIn_append_one,
      inv.sums, ht]
  · intro t
    rw [tripleMemB_addQty]
    constructor
    · intro hb
      exact tripleMemI_append_one.2 (Or.inl ((inv.mems t).1 hb))
    · intro hi
      rcases tripleMemI_append_one.1 hi with hi | hi
      · exact (inv.mems t).2 hi
      · exact hi ▸ ht ▸ ⟨(k, e), alookup_mem he, rfl⟩

theorem hinv_snoc {l : List Ing} {m : List (Key × MEntry)}
    (inv : HInv l m) {c : Ing} (hc : udFree (strLower c.nom))
    {k : Key} (hk2 : k.2 = c.rayon)
    (hnone : alookup m k = none)
    (hform : k.1 = strLower c.nom ∨ k.1 = strLower c.nom ++ "_" ++ c.unite)
    (haltm : ∀ n u : String, udFree n → k.1 = n ++ "_" ++ u →
      ∃ e, alookup m (n, c.rayon) = some e ∧ e.unite ≠ u) :
    HInv (l ++ [c]) (m ++ [(k, ⟨c.rayon, c.nom, c.quantite, c.unite⟩)]) := by
  have hbt : bTriple (k, (⟨c.rayon, c.nom, c.quantite, c.unite⟩ : MEntry)) =
      tripleOf c := by simp [bTriple, tripleOf]
  refine ⟨nodup_keys_snoc _ inv.nodup hnone, ?_, ?_, ?_, ?_⟩
  · intro p hp
    rcases List.mem_append.1 hp with hp | hp
    · exact inv.shape p hp
    · rw [List.mem_singleton.1 hp]
      exact ⟨hk2.symm, hc, hform⟩
  · intro p hp n' u' hn' hkey
    rcases List.mem_append.1 hp with hp | hp
    · obtain ⟨e0, hl, hu⟩ := inv.altMain p hp n' u' hn' hkey
      exact ⟨e0, alookup_append_some hl, hu⟩
    · rw [List.mem_singleton.1 hp] at hkey ⊢
      have hkk : k.1 = n' ++ "_" ++ u' := by
        have := congrArg Prod.fst hkey
        simpa using this
      obtain ⟨e0, hl, hu⟩ := haltm n' u' hn' hkk
      exact ⟨e0, alookup_append_some hl, hu⟩
  · intro n r u
    rw [sumBuck_append_one, sumIn_append_one, inv.sums, hbt]
  · intro t
    rw [tripleMemB_append_one, tripleMemI_append_one, inv.mems, hbt]

theorem hinv_step {l : List Ing} {m : List (Key × MEntry)}
    (inv : HInv l m) {c : Ing} (hc : udFree (strLower c.nom)) :
    HInv (l ++ [c]) (mergeStep m c) := by
  rcases hmain : alookup m (strLower c.nom, c.rayon) with _ | e
  · have hms : mergeStep m c = m ++ [((strLower c.nom, c.rayon),
        ⟨c.rayon, c.nom, c.quantite, c.unite⟩)] := by
      simp only [mergeStep, hmain]
    rw [hms]
    refine hinv_snoc inv hc rfl hmain (Or.inl rfl) ?_
    intro n u hn hkeq
    exact absurd hkeq (sep_ne hc)
  · by_cases hu : e.unite = c.unite
    · have hms : mergeStep m c =
          addQty m (strLower c.nom, c.rayon) c.quantite := by
        simp only [mergeStep, hmain, if_pos hu]
      rw [hms]
      have hmem := alookup_mem hmain
      obtain ⟨hray, hudf, hform⟩ := inv.shape _ hmem
      have hnom : strLower e.nom = strLower c.nom := by
        rcases hform with h | h
        · exact h.symm
        · exact absurd h (sep_ne hc)
      refine hinv_bump inv hmain ?_
      simp [bTriple, tripleOf, hnom, hu]
      simpa using hray
    · rcases halt : alookup m
          (strLower c.nom ++ "_" ++ c.unite, c.rayon) with _ | e'
      · have hms : mergeStep m c = m ++
            [((strLower c.nom ++ "_" ++ c.unite, c.rayon),
              ⟨c.rayon, c.nom, c.quantite, c.unite⟩)] := by
          simp only [mergeStep, hmain, if_neg hu, halt]
        rw [hms]
        refine hinv_snoc inv hc rfl halt (Or.inr rfl) ?_
        intro n' u' hn' hkeq
        obtain ⟨hn2, hu2⟩ := sep_inj hc hn' hkeq
        rw [← hn2, ← hu2]
        exact ⟨e, hmain, hu⟩
      · have hms : mergeStep m c =
            addQty m (strLower c.nom ++ "_" ++ c.unite, c.rayon) c.quantite := by
          simp only [mergeStep, hmain, if_neg hu, halt]
        rw [hms]
        have hmem := alookup_mem halt
        obtain ⟨hray, hudf, hform⟩ := inv.shape _ hmem
        have hnu : strLower e'.nom = strLower c.nom ∧ e'.unite = c.unite := by
          rcases hform with h | h
          · exact absurd h.symm (sep_ne hudf)
          · obtain ⟨h1, h2⟩ := sep_inj hc hudf h
            exact ⟨h1.symm, h2.symm⟩
        refine hinv_bump inv halt ?_
        simp [bTriple, tripleOf, hnu.1, hnu.2]
        simpa using hray

theorem hinv_fold : ∀ (l2 l1 : List Ing) (m : List (Key × MEntry)),
    HInv l1 m → (∀ i ∈ l2, udFree (strLower i.nom)) →
    HInv (l1 ++ l2) (l2.foldl mergeStep m)
  | [], l1, m, inv, _ => by simpa using inv
  | c :: l2, l1, m, inv, hg => by
    have h1 : HInv (l1 ++ [c]) (mergeStep m c) :=
      hinv_step inv (hg c (List.mem_cons_self c l2))
    have h2 := hinv_fold l2 (l1 ++ [c]) (mergeStep m c) h1
      (fun i hi => hg i (List.mem_cons_of_mem c hi))
    simpa using h2

/-- The merge invariant holds of the fully built working map. -/
theorem hinv_mergeAll {l : List Ing} (hg : GoodL l) : HInv l (mergeAll l) := by
  have := hinv_fold l [] [] hinv_nil hg
  simpa [mergeAll] using this

/-! ## Grouping and sorting bridge -/

theorem itemsOf_appendItem (res : List (String × List Item)) (r' : String)
    (it : Item) (r : String) :
    List.Perm (itemsOf (appendItem res r' it) r)
      (itemsOf res r ++ (if r' = r then [it] else [])) := by
  induction res with
  | nil =>
    simp only [appendItem, itemsOf, List.append_nil, List.nil_append]
    by_cases h : r' = r <;> simp [h]
  | cons p rest ih =>
    by_cases hp : p.1 = r'
    · simp only [appendItem, if_pos hp, itemsOf]
      by_cases hr : p.1 = r
      · have hr' : r' = r := hp ▸ hr
        simp only [if_pos hr, if_pos hr']
        rw [List.append_assoc, List.append_assoc]
        exact List.Perm.append_left _ List.perm_append_comm
      · have hr' : r' ≠ r := fun h => hr (hp.trans h)
        simp only [if_neg hr, if_neg hr', List.nil_append, List.append_nil]
        exact List.Perm.refl _
    · simp only [appendItem, if_neg hp, itemsOf]
      rw [List.append_assoc]
      exact List.Perm.append_left _ ih

theorem itemsOf_groupFold : ∀ (m : List (Key × MEntry))
    (res : List (String × List Item)) (r : String),
    List.Perm (itemsOf (m.foldl groupStep res) r)
      (itemsOf res r ++ (bucketsOf m r).map projItem)
  | [], res, r => by simp [bucketsOf]
  | p :: m', res, r => by
    have ih := itemsOf_groupFold m' (groupStep res p) r
    have h1 : List.Perm (itemsOf (groupStep res p) r)
        (itemsOf res r ++ (if p.2.rayon = r then [projItem p] else [])) :=
      itemsOf_appendItem res p.2.rayon (projItem p) r
    have h2 : (bucketsOf (p :: m') r).map projItem =
        (if p.2.rayon = r then [projItem p] else []) ++
          (bucketsOf m' r).map projItem := by
      simp only [bucketsOf, List.filter_cons]
      by_cases hr : p.2.rayon = r <;> simp [hr]
    rw [List.foldl_cons]
    refine ih.trans ?_
    rw [h2, ← List.append_assoc]
    exact List.Perm.append_right _ h1

theorem itemsOf_sortMap (res : List (String × List Item)) (r : String) :
    List.Perm
      (itemsOf (res.map (fun p => (p.1, List.insertionSort itemLe p.2))) r)
      (itemsOf res r) := by
  induction res with
  | nil => simp [itemsOf]
  | cons p rest ih =>
    simp only [List.map_cons, itemsOf]
    refine List.Perm.append ?_ ih
    by_cases hr : p.1 = r
    · simpa [hr] using List.perm_insertionSort itemLe p.2
    · simp [hr]

/-- The items of section `r` of the merged output are, up to order, the
projections of the working-map entries whose section is `r`. -/
theorem merge_items_perm (l : List Ing) (r : String) :
    List.Perm (itemsOf (merge_ingredients l) r)
      ((bucketsOf (mergeAll l) r).map projItem) := by
  have h1 := itemsOf_sortMap ((mergeAll l).foldl groupStep []) r
  have h2 := itemsOf_groupFold (mergeAll l) [] r
  simp only [itemsOf, List.nil_append] at h2
  exact h1.trans h2

theorem sectionMem_iff {res : List (String × List Item)} {r : String} :
    sectionMem res r ↔ r ∈ res.map Prod.fst := by
  constructor
  · rintro ⟨its, h⟩
    exact List.mem_map.2 ⟨(r, its), h, rfl⟩
  · intro h
    rcases List.mem_map.1 h with ⟨p, hp, hr⟩
    rcases p with ⟨a, b⟩
    refine ⟨b, ?_⟩
    simp only at hr
    rw [← hr]
    exact hp

theorem keys_appendItem : ∀ (res : List (String × List Item)) (r' : String)
    (it : Item),
    (appendItem res r' it).map Prod.fst =
      if r' ∈ res.map Prod.fst then res.map Prod.fst
      else res.map Prod.fst ++ [r']
  | [], r', it => by simp [appendItem]
  | p :: rest, r', it => by
    by_cases hp : p.1 = r'
    · simp [appendItem, hp]
    · have ih := keys_appendItem rest r' it
      by_cases hm : r' ∈ rest.map Prod.fst
      · simp [appendItem, hp, hm, ih, Ne.symm hp]
      · simp [appendItem, hp, hm, ih, Ne.symm hp]

theorem sectionMem_appendItem {res : List (String × List Item)}
    {r' : String} {it : Item} {r : String} :
    sectionMem (appendItem res r' it) r ↔ sectionMem res r ∨ r' = r := by
  rw [sectionMem_iff, keys_appendItem, sectionMem_iff]
  by_cases hm : r' ∈ res.map Prod.fst
  · rw [if_pos hm]
    constructor
    · exact Or.inl
    · rintro (h | h)
      · exact h
      · exact h ▸ hm
  · rw [if_neg hm]
    simp only [List.mem_append, List.mem_singleton]
    constructor
    · rintro (h | h)
      · exact Or.inl h
      · exact Or.inr h.symm
    · rintro (h | h)
      · exact Or.inl h
      · exact Or.inr h.symm

theorem sectionMem_groupFold : ∀ (m : List (Key × MEntry))
    (res : List (String × List Item)) (r : String),
    sectionMem (m.foldl groupStep res) r ↔
      sectionMem res r ∨ ∃ p ∈ m, p.2.rayon = r
  | [], res, r => by simp
  | p :: m', res, r => by
    have ih := sectionMem_groupFold m' (groupStep res p) r
    have h1 : sectionMem (groupStep res p) r ↔
        sectionMem res r ∨ p.2.rayon = r := sectionMem_appendItem
    rw [List.foldl_cons, ih, h1]
    simp only [List.mem_cons]
    constructor
    · rintro ((h | h) | ⟨q, hq, hr⟩)
      · exact Or.inl h
      · exact Or.inr ⟨p, Or.inl rfl, h⟩
      · exact Or.inr ⟨q, Or.inr hq, hr⟩
    · rintro (h | ⟨q, hq | hq, hr⟩)
      · exact Or.inl (Or.inl h)
      · exact Or.inl (Or.inr (hq ▸ hr))
      · exact Or.inr ⟨q, hq, hr⟩

theorem sectionMem_sortMap {res : List (String × List Item)} {r : String} :
    sectionMem (res.map (fun p => (p.1, List.insertionSort itemLe p.2))) r ↔
      sectionMem res r := by
  rw [sectionMem_iff, sectionMem_iff, List.map_map]
  have h : (Prod.fst ∘ fun p : String × List Item =>
      (p.1, List.insertionSort itemLe p.2)) = Prod.fst := rfl
  rw [h]

/-- A section appears in the merged output exactly when some working-map
entry carries it. -/
theorem merge_sectionMem (l : List Ing) (r : String) :
    sectionMem (merge_ingredients l) r ↔ ∃ p ∈ mergeAll l, p.2.rayon = r := by
  rw [merge_ingredients, sectionMem_sortMap, sectionMem_groupFold]
  simp [sectionMem]

theorem totalOut_appendItem (res : List (String × List Item)) (r' : String)
    (it : Item) : totalOut (appendItem res r' it) = totalOut res + it.2.1 := by
  induction res with
  | nil => simp [appendItem, totalOut]
  | cons p rest ih =>
    by_cases hp : p.1 = r'
    · simp only [appendItem, if_pos hp, totalOut, List.map_cons, List.sum_cons,
        List.map_append, List.sum_append, List.map_nil, List.sum_nil]
      ring
    · simp only [appendItem, if_neg hp, totalOut, List.map_cons, List.sum_cons]
      simp only [totalOut] at ih
      rw [ih]
      ring

theorem totalOut_groupFold : ∀ (m : List (Key × MEntry))
    (res : List (String × List Item)),
    totalOut (m.foldl groupStep res) = totalOut res + totalBuck m
  | [], res => by simp [totalBuck]
  | p :: m', res => by
    have ih := totalOut_groupFold m' (groupStep res p)
    rw [List.foldl_cons, ih]
    have h : totalOut (groupStep res p) = totalOut res + p.2.quantite := by
      simp only [groupStep]
      rw [totalOut_appendItem]
    rw [h]
    simp only [totalBuck, List.map_cons, List.sum_cons]
    ring

theorem totalOut_sortMap (res : List (String × List Item)) :
    totalOut (res.map (fun p => (p.1, List.insertionSort itemLe p.2))) =
      totalOut res := by
  induction res with
  | nil => rfl
  | cons p rest ih =>
    simp only [List.map_cons, totalOut, List.sum_cons] at ih ⊢
    rw [ih]
    congr 1
    exact List.Perm.sum_eq (List.Perm.map _ (List.perm_insertionSort itemLe p.2))

/-- Keys of the working map stay pairwise distinct across one merge step,
for every input (no hypothesis on names). -/
theorem nodupKeys_mergeStep {m : List (Key × MEntry)}
    (hnd : (m.map Prod.fst).Nodup) (c : Ing) :
    ((mergeStep m c).map Prod.fst).Nodup := by
  rcases hmain : alookup m (strLower c.nom, c.rayon) with _ | e
  · have hms : mergeStep m c = m ++ [((strLower c.nom, c.rayon),
        ⟨c.rayon, c.nom, c.quantite, c.unite⟩)] := by
      simp only [mergeStep, hmain]
    rw [hms]
    exact nodup_keys_snoc _ hnd hmain
  · by_cases hu : e.unite = c.unite
    · have hms : mergeStep m c =
          addQty m (strLower c.nom, c.rayon) c.quantite := by
        simp only [mergeStep, hmain, if_pos hu]
      rw [hms, addQty_map_fst]
      exact hnd
    · rcases halt : alookup m
          (strLower c.nom ++ "_" ++ c.unite, c.rayon) with _ | e'
      · have hms : mergeStep m c = m ++
            [((strLower c.nom ++ "_" ++ c.unite, c.rayon),
              ⟨c.rayon, c.nom, c.quantite, c.unite⟩)] := by
          simp only [mergeStep, hmain, if_neg hu, halt]
        rw [hms]
        exact nodup_keys_snoc _ hnd halt
      · have hms : mergeStep m c =
            addQty m (strLower c.nom ++ "_" ++ c.unite, c.rayon) c.quantite := by
          simp only [mergeStep, hmain, if_neg hu, halt]
        rw [hms, addQty_map_fst]
        exact hnd

theorem totalBuck_mergeStep {m : List (Key × MEntry)}
    (hnd : (m.map Prod.fst).Nodup) (c : Ing) :
    totalBuck (mergeStep m c) = totalBuck m + c.quantite := by
  rcases hmain : alookup m (strLower c.nom, c.rayon) with _ | e
  · have hms : mergeStep m c = m ++ [((strLower c.nom, c.rayon),
        ⟨c.rayon, c.nom, c.quantite, c.unite⟩)] := by
      simp only [mergeStep, hmain]
    rw [hms, totalBuck_append_one]
  · by_cases hu : e.unite = c.unite
    · have hms : mergeStep m c =
          addQty m (strLower c.nom, c.rayon) c.quantite := by
        simp only [mergeStep, hmain, if_pos hu]
      rw [hms, totalBuck_addQty c.quantite hnd hmain]
    · rcases halt : alookup m
          (strLower c.nom ++ "_" ++ c.unite, c.rayon) with _ | e'
      · have hms : mergeStep m c = m ++
            [((strLower c.nom ++ "_" ++ c.unite, c.rayon),
              ⟨c.rayon, c.nom, c.quantite, c.unite⟩)] := by
          simp only [mergeStep, hmain, if_neg hu, halt]
        rw [hms, totalBuck_append_one]
      · have hms : mergeStep m c =
            addQty m (strLower c.nom ++ "_" ++ c.unite, c.rayon) c.quantite := by
          simp only [mergeStep, hmain, if_neg hu, halt]
        rw [hms, totalBuck_addQty c.quantite hnd halt]

theorem totalBuck_fold : ∀ (l : List Ing) (m : List (Key × MEntry)),
    (m.map Prod.fst).Nodup →
    totalBuck (l.foldl mergeStep m) = totalBuck m + totalIn l ∧
      (((l.foldl mergeStep m).map Prod.fst)).Nodup
  | [], m, hnd => by simp [totalIn, hnd]
  | c :: l, m, hnd => by
    have h1 := totalBuck_mergeStep hnd c
    have h2 := nodupKeys_mergeStep hnd c
    have ih := totalBuck_fold l (mergeStep m c) h2
    refine ⟨?_, ih.2⟩
    rw [List.foldl_cons, ih.1, h1]
    simp only [totalIn, List.map_cons, List.sum_cons]
    ring

theorem totalBuck_mergeAll (l : List Ing) :
    totalBuck (mergeAll l) = totalIn l := by
  have := (totalBuck_fold l [] (by simp)).1
  simpa [mergeAll, totalBuck] using this

theorem nodupKeys_mergeAll (l : List Ing) :
    ((mergeAll l).map Prod.fst).Nodup := by
  have := (totalBuck_fold l [] (by simp)).2
  simpa [mergeAll] using this

/-- Grand-total preservation of `merge_ingredients`, unconditionally. -/
theorem merge_total (l : List Ing) :
    totalOut (merge_ingredients l) = totalIn l := by
  rw [merge_ingredients]
  rw [totalOut_sortMap, totalOut_groupFold]
  simp [totalOut, totalBuck_mergeAll]

/-! ## Derived merger results under underscore-free names -/

/-- Number of working-map entries for (lowercased name, section). -/
def countBuck (m : List (Key × MEntry)) (n r : String) : Nat :=
  (m.filter (fun p => decide (strLower p.2.nom = n ∧ p.2.rayon = r))).length

/-- The case-insensitive content of a working-map entry. -/
def projLow (p : Key × MEntry) : String × Int × String :=
  (strLower p.2.nom, p.2.quantite, p.2.unite)

/-- The case-insensitive multiset of entries of section `r`. -/
def entriesLow (res : List (String × List Item)) (r : String) :
    List (String × Int × String) :=
  (itemsOf res r).map lowItem

theorem sumItems_perm {its its' : List Item} (h : List.Perm its its')
    (n u : String) : sumItems its n u = sumItems its' n u :=
  (h.map _).sum_eq

theorem sumItems_buckets (m : List (Key × MEntry)) (n r u : String) :
    sumItems ((bucketsOf m r).map projItem) n u = sumBuck m n r u := by
  induction m with
  | nil => simp [bucketsOf, sumItems, sumBuck]
  | cons p m' ih =>
    by_cases hr : p.2.rayon = r
    · have hfil : bucketsOf (p :: m') r = p :: bucketsOf m' r := by
        simp [bucketsOf, List.filter_cons, hr]
      rw [hfil]
      simp only [List.map_cons, sumItems, List.sum_cons]
      simp only [sumItems] at ih
      rw [ih]
      simp only [sumBuck, List.map_cons, List.sum_cons]
      congr 1
      by_cases hnu : strLower p.2.nom = n ∧ p.2.unite = u
      · have hb : bTriple p = (n, r, u) := by
          simp [bTriple, hnu.1, hnu.2, hr]
        simp [projItem, hnu.1, hnu.2, hb]
      · have hb : bTriple p ≠ (n, r, u) := by
          intro h
          simp only [bTriple, Prod.mk.injEq] at h
          exact hnu ⟨h.1, h.2.2⟩
        have hni : ¬(strLower (projItem p).1 = n ∧ (projItem p).2.2 = u) := by
          simpa [projItem] using hnu
        simp [hni, hb]
    · have hfil : bucketsOf (p :: m') r = bucketsOf m' r := by
        simp [bucketsOf, List.filter_cons, hr]
      rw [hfil, ih]
      have hb : bTriple p ≠ (n, r, u) := by
        intro h
        simp only [bTriple, Prod.mk.injEq] at h
        exact hr h.2.1
      simp only [sumBuck, List.map_cons, List.sum_cons, hb, if_false]
      ring

/-- Per-identity sum preservation of the Merger, under underscore-free
lowercased names. -/
theorem merge_sumOut {l : List Ing} (hg : GoodL l) (n r u : String) :
    sumOut (merge_ingredients l) n r u = sumIn l n r u := by
  have inv := hinv_mergeAll hg
  have hp := merge_items_perm l r
  rw [sumOut, sumItems_perm hp n u, sumItems_buckets]
  exact inv.sums n r u

theorem filter_eq_singleton {α : Type} {P : α → Bool} {m : List α} {p : α}
    (hnd : m.Nodup) (hp : p ∈ m) (hP : P p = true)
    (huniq : ∀ q ∈ m, P q = true → q = p) : m.filter P = [p] := by
  induction m with
  | nil => simp at hp
  | cons a rest ih =>
    rw [List.nodup_cons] at hnd
    rcases List.mem_cons.1 hp with rfl | hp'
    · rw [List.filter_cons, if_pos hP]
      have : rest.filter P = [] := by
        refine List.filter_eq_nil_iff.2 ?_
        intro q hq hPq
        exact hnd.1 ((huniq q (List.mem_cons_of_mem _ hq) hPq) ▸ hq)
      rw [this]
    · have ha : P a = false := by
        by_cases hPa : P a = true
        · exact absurd ((huniq a (List.mem_cons_self _ _) hPa) ▸ hp')
            hnd.1
        · simpa using hPa
      rw [List.filter_cons, ha]
      simp only [Bool.false_eq_true, if_false]
      exact ih hnd.2 hp' (fun q hq hPq =>
        huniq q (List.mem_cons_of_mem _ hq) hPq)

theorem sumBuck_filter (m : List (Key × MEntry)) (n r u : String) :
    sumBuck m n r u =
      ((m.filter (fun p => decide (bTriple p = (n, r, u)))).map
        (fun p => p.2.quantite)).sum := by
  induction m with
  | nil => simp [sumBuck]
  | cons p m' ih =>
    rw [List.filter_cons]
    by_cases hb : bTriple p = (n, r, u)
    · simp only [sumBuck, List.map_cons, List.sum_cons] at ih ⊢
      rw [ih]
      simp [hb]
    · simp only [sumBuck, List.map_cons, List.sum_cons] at ih ⊢
      rw [ih]
      simp [hb]

theorem bTriple_eq_iff {p : Key × MEntry} {n r u : String} :
    bTriple p = (n, r, u) ↔
      strLower p.2.nom = n ∧ p.2.rayon = r ∧ p.2.unite = u := by
  simp [bTriple, Prod.mk.injEq]

theorem tripleOf_eq_iff {i : Ing} {n r u : String} :
    tripleOf i = (n, r, u) ↔
      strLower i.nom = n ∧ i.rayon = r ∧ i.unite = u := by
  simp [tripleOf, Prod.mk.injEq]

/-- Two working-map entries with the same lowercased name, section and
unit are the same entry. -/
theorem bucket_unite_inj {l : List Ing} {m : List (Key × MEntry)}
    (inv : HInv l m) {p q : Key × MEntry} (hp : p ∈ m) (hq : q ∈ m)
    (hnn : strLower p.2.nom = strLower q.2.nom)
    (hrr : p.2.rayon = q.2.rayon)
    (huu : p.2.unite = q.2.unite) : p = q := by
  by_cases hk : p.1 = q.1
  · exact eq_of_mem_nodup_keys inv.nodup hp hq hk
  · exfalso
    obtain ⟨hpr, hpu, hpf⟩ := inv.shape p hp
    obtain ⟨hqr, hqu, hqf⟩ := inv.shape q hq
    have hk2 : p.1.2 = q.1.2 := by rw [← hpr, ← hqr, hrr]
    rcases hpf with hpf | hpf <;> rcases hqf with hqf | hqf
    · exact hk (Prod.ext (by rw [hpf, hqf, hnn]) hk2)
    · -- q sits at a secondary key for p's identity
      obtain ⟨e0, hl, hu0⟩ := inv.altMain q hq (strLower q.2.nom) q.2.unite hqu
        (Prod.ext hqf hqr.symm)
      have hpk : p.1 = (strLower q.2.nom, q.2.rayon) :=
        Prod.ext (by rw [hpf, hnn]) (by rw [← hpr, hrr])
      have hlp : alookup m (strLower q.2.nom, q.2.rayon) = some p.2 := by
        rw [← hpk]
        exact alookup_of_mem_nodup inv.nodup (by
          rcases p with ⟨a, b⟩; exact hp)
      rw [hlp] at hl
      injection hl with hl
      exact hu0 (by rw [← hl, huu])
    · obtain ⟨e0, hl, hu0⟩ := inv.altMain p hp (strLower p.2.nom) p.2.unite hpu
        (Prod.ext hpf hpr.symm)
      have hqk : q.1 = (strLower p.2.nom, p.2.rayon) :=
        Prod.ext (by rw [hqf, hnn]) (by rw [← hqr, hrr])
      have hlq : alookup m (strLower p.2.nom, p.2.rayon) = some q.2 := by
        rw [← hqk]
        exact alookup_of_mem_nodup inv.nodup (by
          rcases q with ⟨a, b⟩; exact hq)
      rw [hlq] at hl
      injection hl with hl
      exact hu0 (by rw [← hl, huu])
    · exact hk (Prod.ext (by rw [hpf, hqf, hnn, huu]) hk2)

/-- The quantity of a working-map entry is the full per-identity sum. -/
theorem sumBuck_eq_entry {l : List Ing} {m : List (Key × MEntry)}
    (inv : HInv l m) {p : Key × MEntry} (hp : p ∈ m) :
    sumBuck m (strLower p.2.nom) p.2.rayon p.2.unite = p.2.quantite := by
  rw [sumBuck_filter]
  have hfil : m.filter (fun q => decide
      (bTriple q = (strLower p.2.nom, p.2.rayon, p.2.unite))) = [p] := by
    refine filter_eq_singleton (List.Nodup.of_map Prod.fst inv.nodup) hp
      (by simp [bTriple]) ?_
    intro q hq hPq
    rw [decide_eq_true_eq, bTriple_eq_iff] at hPq
    exact bucket_unite_inj inv hq hp hPq.1 hPq.2.1 hPq.2.2
  rw [hfil]
  simp

theorem countItems_perm {its its' : List Item} (h : List.Perm its its')
    (n : String) : countItems its n = countItems its' n :=
  (h.filter _).length_eq

theorem countItems_buckets (m : List (Key × MEntry)) (n r : String) :
    countItems ((bucketsOf m r).map projItem) n = countBuck m n r := by
  induction m with
  | nil => simp [bucketsOf, countItems, countBuck]
  | cons p m' ih =>
    by_cases hr : p.2.rayon = r
    · have hfil : bucketsOf (p :: m') r = p :: bucketsOf m' r := by
        simp [bucketsOf, List.filter_cons, hr]
      rw [hfil]
      simp only [List.map_cons, countItems, List.filter_cons]
      simp only [countItems] at ih
      by_cases hn : strLower p.2.nom = n
      · have h1 : strLower (projItem p).1 = n := hn
        simp only [countBuck, List.filter_cons]
        have h2 : (decide (strLower p.2.nom = n ∧ p.2.rayon = r)) = true := by
          simp [hn, hr]
        simp only [h2, if_true, List.length_cons]
        simp only [countBuck] at ih
        simp [h1, ih]
      · have h1 : ¬strLower (projItem p).1 = n := hn
        simp only [countBuck, List.filter_cons]
        have h2 : (decide (strLower p.2.nom = n ∧ p.2.rayon = r)) = false := by
          simp [hn]
        simp only [h2, Bool.false_eq_true, if_false]
        simp only [countBuck] at ih
        simp [h1, ih]
    · have hfil : bucketsOf (p :: m') r = bucketsOf m' r := by
        simp [bucketsOf, List.filter_cons, hr]
      rw [hfil, ih]
      simp only [countBuck, List.filter_cons]
      have h2 : (decide (strLower p.2.nom = n ∧ p.2.rayon = r)) = false := by
        simp [hr]
      simp [h2]

theorem mem_unitsIn {l : List Ing} {n r u : String} :
    u ∈ unitsIn l n r ↔ tripleMemI l (n, r, u) := by
  simp only [unitsIn, List.mem_map, List.mem_filter, decide_eq_true_eq,
    tripleMemI, tripleOf_eq_iff]
  constructor
  · rintro ⟨i, ⟨hi, h1, h2⟩, h3⟩
    exact ⟨i, hi, h1, h2, h3⟩
  · rintro ⟨i, hi, h1, h2, h3⟩
    exact ⟨i, ⟨hi, h1, h2⟩, h3⟩

/-- Per-(name, section) entry count of the Merger equals the number of
distinct units of its occurrences, under underscore-free names. -/
theorem merge_countOut {l : List Ing} (hg : GoodL l) (n r : String) :
    countOut (merge_ingredients l) n r = unitCount l n r := by
  have inv := hinv_mergeAll hg
  rw [countOut, countItems_perm (merge_items_perm l r), countItems_buckets]
  by_cases hn : udFree n
  · have hndB : ((mergeAll l).filter
        (fun p => decide (strLower p.2.nom = n ∧ p.2.rayon = r))).Nodup :=
      (List.Nodup.of_map Prod.fst inv.nodup).filter _
    have hinj : ∀ p ∈ (mergeAll l).filter
        (fun p => decide (strLower p.2.nom = n ∧ p.2.rayon = r)),
        ∀ q ∈ (mergeAll l).filter
        (fun p => decide (strLower p.2.nom = n ∧ p.2.rayon = r)),
        p.2.unite = q.2.unite → p = q := by
      intro p hp q hq hu
      have hpp : strLower p.2.nom = n ∧ p.2.rayon = r := by
        simpa using List.of_mem_filter hp
      have hqq : strLower q.2.nom = n ∧ q.2.rayon = r := by
        simpa using List.of_mem_filter hq
      exact bucket_unite_inj inv (List.mem_of_mem_filter hp)
        (List.mem_of_mem_filter hq) (hpp.1.trans hqq.1.symm)
        (hpp.2.trans hqq.2.symm) hu
    have hndU : (((mergeAll l).filter
        (fun p => decide (strLower p.2.nom = n ∧ p.2.rayon = r))).map
        (fun p => p.2.unite)).Nodup := hndB.map_on hinj
    have hmemU : ∀ u, u ∈ ((mergeAll l).filter
        (fun p => decide (strLower p.2.nom = n ∧ p.2.rayon = r))).map
        (fun p => p.2.unite) ↔ u ∈ (unitsIn l n r).dedup := by
      intro u
      rw [List.mem_dedup, mem_unitsIn, ← inv.mems]
      simp only [List.mem_map, List.mem_filter, decide_eq_true_eq,
        tripleMemB, bTriple_eq_iff]
      constructor
      · rintro ⟨p, ⟨hp, h1, h2⟩, h3⟩
        exact ⟨p, hp, h1, h2, h3⟩
      · rintro ⟨p, hp, h1, h2, h3⟩
        exact ⟨p, ⟨hp, h1, h2⟩, h3⟩
    have hperm : List.Perm (((mergeAll l).filter
        (fun p => decide (strLower p.2.nom = n ∧ p.2.rayon = r))).map
        (fun p => p.2.unite)) (unitsIn l n r).dedup :=
      List.perm_of_nodup_nodup_toFinset_eq hndU (List.nodup_dedup _)
        (Finset.ext (fun u => by
          simp only [List.mem_toFinset]
          exact hmemU u))
    have hlen := hperm.length_eq
    rw [List.length_map] at hlen
    rw [countBuck, unitCount, hlen]
  · have h1 : (mergeAll l).filter
        (fun p => decide (strLower p.2.nom = n ∧ p.2.rayon = r)) = [] := by
      refine List.filter_eq_nil_iff.2 ?_
      intro p hp hP
      rw [decide_eq_true_eq] at hP
      exact hn (hP.1 ▸ (inv.shape p hp).2.1)
    have h2 : l.filter (fun i => decide (strLower i.nom = n ∧ i.rayon = r))
        = [] := by
      refine List.filter_eq_nil_iff.2 ?_
      intro i hi hP
      rw [decide_eq_true_eq] at hP
      exact hn (hP.1 ▸ hg i hi)
    rw [countBuck, h1, unitCount, unitsIn, h2]
    rfl

theorem nodup_projLow {l : List Ing} {m : List (Key × MEntry)}
    (inv : HInv l m) (r : String) :
    ((bucketsOf m r).map projLow).Nodup := by
  refine ((List.Nodup.of_map Prod.fst inv.nodup).filter _).map_on ?_
  intro p hp q hq h
  have hpr : p.2.rayon = r := by
    simpa using List.of_mem_filter hp
  have hqr : q.2.rayon = r := by
    simpa using List.of_mem_filter hq
  have h1 : strLower p.2.nom = strLower q.2.nom :=
    congrArg (fun t : String × Int × String => t.1) h
  have h3 : p.2.unite = q.2.unite :=
    congrArg (fun t : String × Int × String => t.2.2) h
  exact bucket_unite_inj inv (List.mem_of_mem_filter hp)
    (List.mem_of_mem_filter hq) h1 (hpr.trans hqr.symm) h3

theorem mem_projLow_iff {l : List Ing} {m : List (Key × MEntry)}
    (inv : HInv l m) {r : String} {t : String × Int × String} :
    t ∈ (bucketsOf m r).map projLow ↔
      tripleMemI l (t.1, r, t.2.2) ∧ t.2.1 = sumIn l t.1 r t.2.2 := by
  constructor
  · intro hmem
    rcases List.mem_map.1 hmem with ⟨p, hpB, hproj⟩
    have hpm := List.mem_of_mem_filter hpB
    have hpr : p.2.rayon = r := by
      simpa using List.of_mem_filter hpB
    have h1 : strLower p.2.nom = t.1 :=
      congrArg (fun t : String × Int × String => t.1) hproj
    have h2 : p.2.quantite = t.2.1 :=
      congrArg (fun t : String × Int × String => t.2.1) hproj
    have h3 : p.2.unite = t.2.2 :=
      congrArg (fun t : String × Int × String => t.2.2) hproj
    constructor
    · refine (inv.mems _).1 ⟨p, hpm, ?_⟩
      rw [bTriple_eq_iff]
      exact ⟨h1, hpr, h3⟩
    · have hs := sumBuck_eq_entry inv hpm
      rw [inv.sums] at hs
      rw [← h2, ← hs, h1, hpr, h3]
  · rintro ⟨hI, hq⟩
    rcases (inv.mems _).2 hI with ⟨p, hp, hbt⟩
    rw [bTriple_eq_iff] at hbt
    refine List.mem_map.2 ⟨p, List.mem_filter.2 ⟨hp, by simp [hbt.2.1]⟩, ?_⟩
    have hs := sumBuck_eq_entry inv hp
    rw [inv.sums] at hs
    rcases t with ⟨t1, t2, t3⟩
    simp only at hbt hq ⊢
    rw [projLow, hbt.1, hbt.2.2]
    have : p.2.quantite = t2 := by
      rw [← hs, hbt.1, hbt.2.1, hbt.2.2, ← hq]
    rw [this]

theorem merge_section_iff_input {l : List Ing} (hg : GoodL l) (r : String) :
    sectionMem (merge_ingredients l) r ↔ ∃ i ∈ l, i.rayon = r := by
  rw [merge_sectionMem]
  have inv := hinv_mergeAll hg
  constructor
  · rintro ⟨p, hp, hr⟩
    rcases (inv.mems _).1 ⟨p, hp, rfl⟩ with ⟨i, hi, ht⟩
    refine ⟨i, hi, ?_⟩
    have h2 : i.rayon = p.2.rayon := by
      have := congrArg (fun t : String × String × String => t.2.1) ht
      simpa [tripleOf, bTriple] using this
    exact h2.trans hr
  · rintro ⟨i, hi, hr⟩
    rcases (inv.mems (tripleOf i)).2 ⟨i, hi, rfl⟩ with ⟨p, hp, ht⟩
    refine ⟨p, hp, ?_⟩
    have h2 : p.2.rayon = i.rayon := by
      have := congrArg (fun t : String × String × String => t.2.1) ht
      simpa [tripleOf, bTriple] using this
    exact h2.trans hr

/-- Permuting the input does not change the case-insensitive content of
any section of the Merger's output (underscore-free names). -/
theorem merge_entriesLow_perm {l l' : List Ing} (hg : GoodL l)
    (hperm : List.Perm l l') (r : String) :
    List.Perm (entriesLow (merge_ingredients l) r)
      (entriesLow (merge_ingredients l') r) := by
  have hg' : GoodL l' := fun i hi => hg i (hperm.mem_iff.2 hi)
  have inv := hinv_mergeAll hg
  have inv' := hinv_mergeAll hg'
  have e1 : List.Perm (entriesLow (merge_ingredients l) r)
      ((bucketsOf (mergeAll l) r).map projLow) := by
    have h := (merge_items_perm l r).map lowItem
    rw [List.map_map] at h
    exact h
  have e2 : List.Perm (entriesLow (merge_ingredients l') r)
      ((bucketsOf (mergeAll l') r).map projLow) := by
    have h := (merge_items_perm l' r).map lowItem
    rw [List.map_map] at h
    exact h
  have hX : List.Perm ((bucketsOf (mergeAll l) r).map projLow)
      ((bucketsOf (mergeAll l') r).map projLow) := by
    refine List.perm_of_nodup_nodup_toFinset_eq (nodup_projLow inv r)
      (nodup_projLow inv' r) (Finset.ext fun t => ?_)
    simp only [List.mem_toFinset]
    rw [mem_projLow_iff inv, mem_projLow_iff inv']
    have hm : tripleMemI l (t.1, r, t.2.2) ↔ tripleMemI l' (t.1, r, t.2.2) := by
      constructor <;> rintro ⟨i, hi, ht⟩
      · exact ⟨i, hperm.mem_iff.1 hi, ht⟩
      · exact ⟨i, hperm.mem_iff.2 hi, ht⟩
    have hs : sumIn l t.1 r t.2.2 = sumIn l' t.1 r t.2.2 :=
      (hperm.map _).sum_eq
    rw [hm, hs]
  exact e1.trans (hX.trans e2.symm)

/-! ## First-creator invariant (no hypothesis on names) -/

theorem ne_self_sep (n u : String) : n ≠ n ++ "_" ++ u := by
  intro h
  have hlen := congrArg (fun s => s.data.length) h
  have hus : ("_" : String).data = ['_'] := rfl
  simp only [String.data_append, List.length_append, hus,
    List.length_cons, List.length_nil] at hlen
  omega

theorem find?_append_some {α : Type} {p : α → Bool} {l : List α} {x : α}
    (h : l.find? p = some x) (l' : List α) : (l ++ l').find? p = some x := by
  induction l with
  | nil => simp [List.find?] at h
  | cons a rest ih =>
    cases hpa : p a
    · simp only [List.find?, hpa] at h
      simp only [List.cons_append, List.find?, hpa]
      exact ih h
    · simp only [List.find?, hpa] at h
      simp only [List.cons_append, List.find?, hpa]
      exact h

theorem find?_append_none {α : Type} {p : α → Bool} {l : List α}
    (h : l.find? p = none) (l' : List α) : (l ++ l').find? p = l'.find? p := by
  induction l with
  | nil => simp
  | cons a rest ih =>
    cases hpa : p a
    · simp only [List.find?, hpa] at h
      simp only [List.cons_append, List.find?, hpa]
      exact ih h
    · simp only [List.find?, hpa] at h
      exact absurd h (by simp)

theorem addQtyF_nom (k : Key) (q : Int) (p : Key × MEntry) :
    (if p.1 = k then
      (p.1, { p.2 with quantite := p.2.quantite + q }) else p).2.nom =
      p.2.nom := by
  by_cases hpk : p.1 = k <;> simp [hpk]

theorem alookup_addQty_isSome (m : List (Key × MEntry)) (k k' : Key)
    (q : Int) :
    (alookup (addQty m k q) k').isSome = (alookup m k').isSome := by
  by_cases hk : k' = k
  · subst hk
    cases hl : alookup m k' with
    | none =>
      rw [addQty_of_not_mem q (alookup_eq_none_iff.1 hl), hl]
    | some e =>
      simp [alookup_addQty_self hl, hl]
  · rw [alookup_addQty_ne hk]

/-- The invariant tying output names to inputs, for every input: each
entry's display name is the name of the first occurrence carrying the
entry's dedup identity, and every processed occurrence has its primary
key present, with either a matching unit there or its secondary key
present. -/
structure UInv (l : List Ing) (m : List (Key × MEntry)) : Prop where
  firstNom : ∀ p ∈ m, ∃ i,
    l.find? (fun j => decide (tripleOf j = bTriple p)) = some i ∧
      i.nom = p.2.nom
  mainFor : ∀ o ∈ l, ∃ e,
    alookup m (strLower o.nom, o.rayon) = some e ∧
      (e.unite = o.unite ∨
        (alookup m (strLower o.nom ++ "_" ++ o.unite, o.rayon)).isSome = true)

theorem uinv_nil : UInv [] [] := by
  constructor
  · intro p hp
    simp at hp
  · intro o ho
    simp at ho

theorem uinv_bump {l : List Ing} {m : List (Key × MEntry)}
    (uv : UInv l m) {c : Ing} {k : Key}
    (hnew : ∃ e1,
      alookup (addQty m k c.quantite) (strLower c.nom, c.rayon) = some e1 ∧
      (e1.unite = c.unite ∨
        (alookup (addQty m k c.quantite)
          (strLower c.nom ++ "_" ++ c.unite, c.rayon)).isSome = true)) :
    UInv (l ++ [c]) (addQty m k c.quantite) := by
  constructor
  · intro p' hp'
    rcases List.mem_map.1 hp' with ⟨p, hp, rfl⟩
    rcases uv.firstNom p hp with ⟨i, hf, hn⟩
    refine ⟨i, ?_, ?_⟩
    · rw [bTriple_addQtyF]
      exact find?_append_some hf [c]
    · rw [addQtyF_nom]
      exact hn
  · intro o ho
    rcases List.mem_append.1 ho with ho | ho
    · rcases uv.mainFor o ho with ⟨e0, he0, hdis⟩
      rcases alookup_addQty_unite he0 with ⟨e1, he1, hu1⟩
      refine ⟨e1, he1, ?_⟩
      rcases hdis with hdis | hdis
      · exact Or.inl (hu1.trans hdis)
      · refine Or.inr ?_
        rw [alookup_addQty_isSome]
        exact hdis
    · rw [List.mem_singleton.1 ho]
      exact hnew

theorem uinv_snoc {l : List Ing} {m : List (Key × MEntry)}
    (uv : UInv l m) {c : Ing} {k : Key}
    (hbt : bTriple (k, (⟨c.rayon, c.nom, c.quantite, c.unite⟩ : MEntry)) =
      tripleOf c)
    (hfresh : ∀ o ∈ l, tripleOf o ≠ tripleOf c)
    (hnew : ∃ e1,
      alookup (m ++ [(k, ⟨c.rayon, c.nom, c.quantite, c.unite⟩)])
        (strLower c.nom, c.rayon) = some e1 ∧
      (e1.unite = c.unite ∨
        (alookup (m ++ [(k, ⟨c.rayon, c.nom, c.quantite, c.unite⟩)])
          (strLower c.nom ++ "_" ++ c.unite, c.rayon)).isSome = true)) :
    UInv (l ++ [c]) (m ++ [(k, ⟨c.rayon, c.nom, c.quantite, c.unite⟩)]) := by
  constructor
  · intro p hp
    rcases List.mem_append.1 hp with hp | hp
    · rcases uv.firstNom p hp with ⟨i, hf, hn⟩
      exact ⟨i, find?_append_some hf [c], hn⟩
    · rw [List.mem_singleton.1 hp]
      refine ⟨c, ?_, rfl⟩
      have hfnone : l.find? (fun j => decide (tripleOf j = tripleOf c)) =
          none := by
        rw [List.find?_eq_none]
        intro o ho
        simp only [decide_eq_true_eq]
        exact hfresh o ho
      rw [hbt, find?_append_none hfnone]
      simp [List.find?]
  · intro o ho
    rcases List.mem_append.1 ho with ho | ho
    · rcases uv.mainFor o ho with ⟨e0, he0, hdis⟩
      refine ⟨e0, alookup_append_some he0, ?_⟩
      rcases hdis with hdis | hdis
      · exact Or.inl hdis
      · refine Or.inr ?_
        rcases Option.isSome_iff_exists.1 hdis with ⟨e2, he2⟩
        rw [alookup_append_some he2]
        rfl
    · rw [List.mem_singleton.1 ho]
      exact hnew

theorem uinv_step {l : List Ing} {m : List (Key × MEntry)}
    (uv : UInv l m) (c : Ing) : UInv (l ++ [c]) (mergeStep m c) := by
  rcases hmain : alookup m (strLower c.nom, c.rayon) with _ | e
  · have hms : mergeStep m c = m ++ [((strLower c.nom, c.rayon),
        ⟨c.rayon, c.nom, c.quantite, c.unite⟩)] := by
      simp only [mergeStep, hmain]
    rw [hms]
    refine uinv_snoc uv (by simp [bTriple, tripleOf]) ?_ ?_
    · intro o ho ht
      simp only [tripleOf, Prod.mk.injEq] at ht
      rcases uv.mainFor o ho with ⟨e0, he0, _⟩
      rw [ht.1, ht.2.1] at he0
      rw [he0] at hmain
      exact absurd hmain (by simp)
    · refine ⟨⟨c.rayon, c.nom, c.quantite, c.unite⟩, ?_, Or.inl rfl⟩
      rw [alookup_append_none _ hmain]
      simp [alookup]
  · by_cases hu : e.unite = c.unite
    · have hms : mergeStep m c =
          addQty m (strLower c.nom, c.rayon) c.quantite := by
        simp only [mergeStep, hmain, if_pos hu]
      rw [hms]
      refine uinv_bump uv ?_
      exact ⟨_, alookup_addQty_self hmain, Or.inl hu⟩
    · rcases halt : alookup m
          (strLower c.nom ++ "_" ++ c.unite, c.rayon) with _ | e'
      · have hms : mergeStep m c = m ++
            [((strLower c.nom ++ "_" ++ c.unite, c.rayon),
              ⟨c.rayon, c.nom, c.quantite, c.unite⟩)] := by
          simp only [mergeStep, hmain, if_neg hu, halt]
        rw [hms]
        refine uinv_snoc uv (by simp [bTriple, tripleOf]) ?_ ?_
        · intro o ho ht
          simp only [tripleOf, Prod.mk.injEq] at ht
          rcases uv.mainFor o ho with ⟨e0, he0, hdis⟩
          rw [ht.1, ht.2.1] at he0
          rw [he0] at hmain
          injection hmain with hme
          rcases hdis with hdis | hdis
          · exact hu (by rw [← hme, hdis, ht.2.2])
          · rw [ht.1, ht.2.1, ht.2.2] at hdis
            rw [halt] at hdis
            simp at hdis
        · refine ⟨e, alookup_append_some hmain, Or.inr ?_⟩
          rw [alookup_append_none _ halt]
          simp [alookup]
      · have hms : mergeStep m c =
            addQty m (strLower c.nom ++ "_" ++ c.unite, c.rayon)
              c.quantite := by
          simp only [mergeStep, hmain, if_neg hu, halt]
        rw [hms]
        refine uinv_bump uv ?_
        have hne : (strLower c.nom, c.rayon) ≠
            (strLower c.nom ++ "_" ++ c.unite, c.rayon) := by
          intro h
          exact ne_self_sep (strLower c.nom) c.unite (congrArg Prod.fst h)
        refine ⟨e, ?_, Or.inr ?_⟩
        · rw [alookup_addQty_ne hne]
          exact hmain
        · rw [alookup_addQty_isSome, halt]
          rfl

theorem uinv_fold : ∀ (l2 l1 : List Ing) (m : List (Key × MEntry)),
    UInv l1 m → UInv (l1 ++ l2) (l2.foldl mergeStep m)
  | [], l1, m, uv => by simpa using uv
  | c :: l2, l1, m, uv => by
    have h1 : UInv (l1 ++ [c]) (mergeStep m c) := uinv_step uv c
    have h2 := uinv_fold l2 (l1 ++ [c]) (mergeStep m c) h1
    simpa using h2

theorem uinv_mergeAll (l : List Ing) : UInv l (mergeAll l) := by
  have := uinv_fold l [] [] uinv_nil
  simpa [mergeAll] using this

theorem mem_itemsOf_of_mem {res : List (String × List Item)} {r : String}
    {its : List Item} {it : Item} (h : (r, its) ∈ res) (hi : it ∈ its) :
    it ∈ itemsOf res r := by
  induction res with
  | nil => simp at h
  | cons p rest ih =>
    rcases List.mem_cons.1 h with h | h
    · rcases p with ⟨a, b⟩
      injection h.symm with h1 h2
      rw [itemsOf]
      refine List.mem_append_left _ ?_
      rw [if_pos h1]
      rw [h2]
      exact hi
    · exact List.mem_append_right _ (ih h)

/-- Every entry of the merged output displays the name, with its original
casing, of the first input occurrence carrying the entry's
(lowercased name, section, unit) identity — for every input list. -/
theorem merge_firstNom {l : List Ing} {r : String} {its : List Item}
    {it : Item} (hsec : (r, its) ∈ merge_ingredients l) (hit : it ∈ its) :
    ∃ i, l.find?
        (fun j => decide (tripleOf j = (strLower it.1, r, it.2.2))) =
        some i ∧ i.nom = it.1 := by
  have h1 : it ∈ itemsOf (merge_ingredients l) r :=
    mem_itemsOf_of_mem hsec hit
  have h2 : it ∈ (bucketsOf (mergeAll l) r).map projItem :=
    (merge_items_perm l r).mem_iff.1 h1
  rcases List.mem_map.1 h2 with ⟨p, hpB, hproj⟩
  have hpm := List.mem_of_mem_filter hpB
  have hpr : p.2.rayon = r := by
    simpa using List.of_mem_filter hpB
  rcases (uinv_mergeAll l).firstNom p hpm with ⟨i, hf, hn⟩
  have hnom : p.2.nom = it.1 :=
    congrArg (fun t : Item => t.1) hproj
  have hunite : p.2.unite = it.2.2 :=
    congrArg (fun t : Item => t.2.2) hproj
  have hb : bTriple p = (strLower it.1, r, it.2.2) := by
    rw [bTriple_eq_iff]
    exact ⟨by rw [hnom], hpr, hunite⟩
  rw [hb] at hf
  exact ⟨i, hf, hn.trans hnom⟩

/-! ## Stock Subtractor: refinement against the specified policy -/

/-- The per-item policy of the Stock Subtractor exactly as the
specification words it (spec §4.4, step 2): no stock entry → the item
passes through unchanged; stock entry with matching unit → subtract, keep
the reduced item exactly when the remainder is strictly positive,
otherwise drop it; stock entry with a different unit → the item passes
through unchanged. -/
def subtractSpecItem (idx : List (Key × SEntry)) (rayon : String)
    (it : Item) : Option Item :=
  match alookup idx (strLower it.1, rayon) with
  | none => some it
  | some st =>
    if st.unite = it.2.2 then
      if 0 < it.2.1 - st.quantite then
        some (it.1, it.2.1 - st.quantite, it.2.2)
      else none
    else some it

/-- The Stock Subtractor as the specification words it (spec §4.4,
steps 2-3): apply the per-item policy to every section and omit sections
whose items all drop out. -/
def subtract_stock_spec (final_list stock_items :
    List (String × List Item)) : List (String × List Item) :=
  (final_list.map (fun p =>
    (p.1, p.2.filterMap
      (subtractSpecItem (buildStockIndex stock_items) p.1)))).filter
    (fun p => !p.2.isEmpty)

theorem subtractItems_fold (idx : List (Key × SEntry)) (r : String) :
    ∀ (items acc : List Item),
    items.foldl (subtractItemStep idx r) acc =
      acc ++ items.filterMap (subtractSpecItem idx r)
  | [], acc => by simp
  | it :: items, acc => by
    rw [List.foldl_cons, subtractItems_fold idx r items _]
    rcases h : alookup idx (strLower it.1, r) with _ | st
    · simp only [subtractItemStep, h, subtractSpecItem, List.filterMap_cons]
      rw [List.append_assoc]
      rfl
    · by_cases hu : st.unite = it.2.2
      · by_cases hrem : (0 : Int) < it.2.1 - st.quantite
        · have hgt : it.2.1 - st.quantite > 0 := hrem
          simp only [subtractItemStep, h, if_pos hu, subtractSpecItem,
            List.filterMap_cons, if_pos hrem, if_pos hgt]
          rw [List.append_assoc]
          rfl
        · have hgt : ¬(it.2.1 - st.quantite > 0) := hrem
          simp only [subtractItemStep, h, if_pos hu, subtractSpecItem,
            List.filterMap_cons, if_neg hrem, if_neg hgt]
      · simp only [subtractItemStep, h, if_neg hu, subtractSpecItem,
          List.filterMap_cons, if_neg hu]
        rw [List.append_assoc]
        rfl

theorem subtractSections_fold (idx : List (Key × SEntry)) :
    ∀ (fl acc : List (String × List Item)),
    fl.foldl (subtractSectionStep idx) acc =
      acc ++ ((fl.map (fun p =>
        (p.1, p.2.filterMap (subtractSpecItem idx p.1)))).filter
        (fun p => !p.2.isEmpty))
  | [], acc => by simp
  | p :: fl, acc => by
    rw [List.foldl_cons, subtractSections_fold idx fl _]
    have hitems : p.2.foldl (subtractItemStep idx p.1) [] =
        p.2.filterMap (subtractSpecItem idx p.1) := by
      rw [subtractItems_fold]
      rfl
    simp only [subtractSectionStep, hitems, List.map_cons, List.filter_cons]
    by_cases he : (p.2.filterMap (subtractSpecItem idx p.1)).isEmpty = true
    · simp [he]
    · simp only [he, if_neg he, Bool.not_eq_true']
      simp only [Bool.not_eq_true] at he
      simp only [he, Bool.not_false, if_true, Bool.false_eq_true, if_false]
      rw [List.append_assoc]
      rfl

/-- The translated `subtract_stock` coincides with the specification's
case-by-case description. -/
theorem subtract_stock_eq (final_list stock_items :
    List (String × List Item)) :
    subtract_stock final_list stock_items =
      subtract_stock_spec final_list stock_items := by
  rw [subtract_stock, subtract_stock_spec, subtractSections_fold]
  rfl

/-- All quantities of a grouped list are strictly positive. -/
def AllPos (fl : List (String × List Item)) : Prop :=
  ∀ p ∈ fl, ∀ it ∈ p.2, (0 : Int) < it.2.1

instance (fl : List (String × List Item)) : Decidable (AllPos fl) :=
  List.decidableBAll _ fl

theorem subtract_stock_pos {fl s : List (String × List Item)}
    (hpos : AllPos fl) : AllPos (subtract_stock fl s) := by
  rw [subtract_stock_eq]
  intro p hp it hit
  rcases List.mem_filter.1 hp with ⟨hp', _⟩
  rcases List.mem_map.1 hp' with ⟨q, hq, rfl⟩
  rcases List.mem_filterMap.1 hit with ⟨it0, hit0, hspec⟩
  rcases h : alookup (buildStockIndex s) (strLower it0.1, q.1) with _ | st
  · simp only [subtractSpecItem, h] at hspec
    injection hspec with hspec
    rw [← hspec]
    exact hpos q hq it0 hit0
  · simp only [subtractSpecItem, h] at hspec
    by_cases hu : st.unite = it0.2.2
    · rw [if_pos hu] at hspec
      by_cases hrem : (0 : Int) < it0.2.1 - st.quantite
      · rw [if_pos hrem] at hspec
        injection hspec with hspec
        rw [← hspec]
        exact hrem
      · rw [if_neg hrem] at hspec
        exact absurd hspec (by simp)
    · rw [if_neg hu] at hspec
      injection hspec with hspec
      rw [← hspec]
      exact hpos q hq it0 hit0

theorem subtract_stock_keeps {fl s : List (String × List Item)}
    {p : String × List Item} {it : Item} (hp : p ∈ fl) (hit : it ∈ p.2)
    (hmatch : ∀ st, alookup (buildStockIndex s) (strLower it.1, p.1) =
      some st → st.unite ≠ it.2.2) :
    ∃ its, (p.1, its) ∈ subtract_stock fl s ∧ it ∈ its := by
  rw [subtract_stock_eq]
  have hspec : subtractSpecItem (buildStockIndex s) p.1 it = some it := by
    rcases h : alookup (buildStockIndex s) (strLower it.1, p.1) with _ | st
    · simp only [subtractSpecItem, h]
    · simp only [subtractSpecItem, h, if_neg (hmatch st h)]
  refine ⟨p.2.filterMap (subtractSpecItem (buildStockIndex s) p.1), ?_, ?_⟩
  · refine List.mem_filter.2 ⟨List.mem_map.2 ⟨p, hp, rfl⟩, ?_⟩
    have hmem : it ∈ p.2.filterMap (subtractSpecItem (buildStockIndex s) p.1) :=
      List.mem_filterMap.2 ⟨it, hit, hspec⟩
    cases hfm : p.2.filterMap (subtractSpecItem (buildStockIndex s) p.1) with
    | nil => rw [hfm] at hmem; simp at hmem
    | cons a l => simp
  · exact List.mem_filterMap.2 ⟨it, hit, hspec⟩

/-! ## Section ordering of the List Builder -/

/-- The ordering the specification promises for the sections of the built
list: canonical sections first in canonical order, then the remaining
sections alphabetically. -/
def sectRel (a b : String) : Prop :=
  (a ∈ rayon_order ∧ b ∈ rayon_order ∧
    rayon_order.indexOf a < rayon_order.indexOf b) ∨
  (a ∈ rayon_order ∧ b ∉ rayon_order) ∨
  (a ∉ rayon_order ∧ b ∉ rayon_order ∧ a < b)

theorem keys_orderFold (merged : List (String × List Item)) :
    ∀ (L : List String) (acc : List (String × List Item)),
    ((L.foldl (fun acc r =>
      match alookup merged r with
      | some items => acc ++ [(r, items)]
      | none => acc) acc).map Prod.fst) =
      acc.map Prod.fst ++ L.filter (fun r => (alookup merged r).isSome)
  | [], acc => by simp
  | r :: L, acc => by
    rw [List.foldl_cons]
    rcases h : alookup merged r with _ | items
    · simp only [h]
      rw [keys_orderFold merged L acc, List.filter_cons]
      simp [h]
    · simp only [h]
      rw [keys_orderFold merged L (acc ++ [(r, items)]), List.filter_cons]
      simp [h, List.map_append]

theorem nodup_keys_appendItem {res : List (String × List Item)}
    {r : String} {it : Item} (h : (res.map Prod.fst).Nodup) :
    ((appendItem res r it).map Prod.fst).Nodup := by
  rw [keys_appendItem]
  by_cases hm : r ∈ res.map Prod.fst
  · rw [if_pos hm]
    exact h
  · rw [if_neg hm]
    refine List.Nodup.append h (List.nodup_singleton r) ?_
    intro a ha hb
    rw [List.mem_singleton] at hb
    exact hm (hb ▸ ha)

theorem nodup_keys_groupFold : ∀ (m : List (Key × MEntry))
    (res : List (String × List Item)), (res.map Prod.fst).Nodup →
    ((m.foldl groupStep res).map Prod.fst).Nodup
  | [], _, h => h
  | _ :: m', _, h => nodup_keys_groupFold m' _ (nodup_keys_appendItem h)

theorem keys_sortMap (res : List (String × List Item)) :
    (res.map (fun p => (p.1, List.insertionSort itemLe p.2))).map Prod.fst =
      res.map Prod.fst := by
  rw [List.map_map]
  rfl

theorem nodup_keys_merge (l : List Ing) :
    ((merge_ingredients l).map Prod.fst).Nodup := by
  rw [merge_ingredients, keys_sortMap]
  exact nodup_keys_groupFold _ [] (by simp)

theorem build_final_keys (rec free : List (String × List Item)) :
    (build_final_list rec free).map Prod.fst =
      rayon_order.filter (fun r => (alookup
        (merge_ingredients (flattenGroup rec ++ flattenGroup free))
        r).isSome) ++
      (List.insertionSort (fun a b : String => a ≤ b)
        (((merge_ingredients (flattenGroup rec ++ flattenGroup free)).map
          Prod.fst).filter (fun r => decide (r ∉ rayon_order)))).filter
        (fun r => (alookup
          (merge_ingredients (flattenGroup rec ++ flattenGroup free))
          r).isSome) := by
  simp only [build_final_list]
  rw [List.map_append, keys_orderFold, keys_orderFold]
  simp

theorem pairwise_canonical :
    List.Pairwise (fun a b => rayon_order.indexOf a < rayon_order.indexOf b)
      rayon_order := by decide

/-- The sections of every built list satisfy the specification's ordering
relation pairwise. -/
theorem build_final_pairwise (rec free : List (String × List Item)) :
    List.Pairwise sectRel ((build_final_list rec free).map Prod.fst) := by
  rw [build_final_keys, List.pairwise_append]
  refine ⟨?_, ?_, ?_⟩
  · refine List.Pairwise.imp_of_mem ?_ (pairwise_canonical.filter _)
    intro a b ha hb hab
    exact Or.inl ⟨List.mem_of_mem_filter ha, List.mem_of_mem_filter hb, hab⟩
  · have hsort : List.Pairwise (fun a b : String => a ≤ b)
        (List.insertionSort (fun a b : String => a ≤ b)
          (((merge_ingredients (flattenGroup rec ++ flattenGroup free)).map
            Prod.fst).filter (fun r => decide (r ∉ rayon_order)))) :=
      List.sorted_insertionSort _ _
    have hndc : (((merge_ingredients
        (flattenGroup rec ++ flattenGroup free)).map Prod.fst).filter
        (fun r => decide (r ∉ rayon_order))).Nodup :=
      (nodup_keys_merge _).filter _
    have hnds : (List.insertionSort (fun a b : String => a ≤ b)
        (((merge_ingredients (flattenGroup rec ++ flattenGroup free)).map
          Prod.fst).filter (fun r => decide (r ∉ rayon_order)))).Nodup :=
      (List.perm_insertionSort _ _).symm.nodup hndc
    refine List.Pairwise.imp_of_mem ?_ ((hsort.filter _).and (hnds.filter _))
    intro a b ha hb hab
    have hnotA : a ∉ rayon_order := by
      have h1 := List.mem_of_mem_filter ha
      have h2 := (List.perm_insertionSort (fun a b : String => a ≤ b)
        _).mem_iff.1 h1
      exact of_decide_eq_true ((List.mem_filter.1 h2).2)
    have hnotB : b ∉ rayon_order := by
      have h1 := List.mem_of_mem_filter hb
      have h2 := (List.perm_insertionSort (fun a b : String => a ≤ b)
        _).mem_iff.1 h1
      exact of_decide_eq_true ((List.mem_filter.1 h2).2)
    exact Or.inr (Or.inr ⟨hnotA, hnotB, lt_of_le_of_ne hab.1 hab.2⟩)
  · intro a ha b hb
    have haA : a ∈ rayon_order := List.mem_of_mem_filter ha
    have hnotB : b ∉ rayon_order := by
      have h1 := List.mem_of_mem_filter hb
      have h2 := (List.perm_insertionSort (fun a b : String => a ≤ b)
        _).mem_iff.1 h1
      exact of_decide_eq_true ((List.mem_filter.1 h2).2)
    exact Or.inr (Or.inl ⟨haA, hnotB⟩)

/-! ## Catalogue Updater -/

/-- No section of the catalogue lists the same article twice, compared
case-insensitively. -/
def CatOk (cat : List Rayon) : Prop :=
  ∀ ry ∈ cat, (ry.articles.map strLower).Nodup

instance (cat : List Rayon) : Decidable (CatOk cat) :=
  List.decidableBAll _ cat

theorem add_ing_idem : ∀ (cat : List Rayon) (ing rnom : String),
    add_ingredient_to_catalogue
        (add_ingredient_to_catalogue cat ing rnom).2 ing rnom =
      (false, (add_ingredient_to_catalogue cat ing rnom).2)
  | [], ing, rnom => by
    simp [add_ingredient_to_catalogue]
  | r :: rest, ing, rnom => by
    by_cases hr : r.nom = rnom
    · by_cases hmem : strLower ing ∈ r.articles.map strLower
      · simp [add_ingredient_to_catalogue, hr, hmem]
      · have hmem2 : strLower ing ∈
            (List.insertionSort artLe (r.articles ++ [ing])).map
              strLower := by
          have h1 : strLower ing ∈ (r.articles ++ [ing]).map strLower := by
            simp
          exact ((List.perm_insertionSort artLe
            (r.articles ++ [ing])).map strLower).mem_iff.2 h1
        simp [add_ingredient_to_catalogue, hr, hmem, hmem2]
    · have ih := add_ing_idem rest ing rnom
      simp [add_ingredient_to_catalogue, hr, ih]

theorem add_ing_catok : ∀ (cat : List Rayon) (ing rnom : String),
    CatOk cat → CatOk (add_ingredient_to_catalogue cat ing rnom).2
  | [], ing, rnom, _ => by
    intro ry hry
    simp only [add_ingredient_to_catalogue] at hry
    rw [List.mem_singleton] at hry
    rw [hry]
    exact List.nodup_singleton _
  | r :: rest, ing, rnom, hok => by
    have hokr : (r.articles.map strLower).Nodup :=
      hok r (List.mem_cons_self _ _)
    have hokrest : CatOk rest :=
      fun ry hry => hok ry (List.mem_cons_of_mem _ hry)
    by_cases hr : r.nom = rnom
    · by_cases hmem : strLower ing ∈ r.articles.map strLower
      · simpa [add_ingredient_to_catalogue, hr, hmem, CatOk] using hok
      · intro ry hry
        simp only [add_ingredient_to_catalogue, if_pos hr,
          if_neg hmem] at hry
        rcases List.mem_cons.1 hry with hry | hry
        · rw [hry]
          have hperm : List.Perm
              ((List.insertionSort artLe (r.articles ++ [ing])).map
                strLower)
              ((r.articles ++ [ing]).map strLower) :=
            (List.perm_insertionSort artLe _).map strLower
          refine hperm.symm.nodup ?_
          rw [List.map_append]
          refine List.Nodup.append hokr (by simp) ?_
          intro a ha hb
          simp only [List.map_cons, List.map_nil,
            List.mem_singleton] at hb
          exact hmem (hb ▸ ha)
        · exact hokrest ry hry
    · intro ry hry
      simp only [add_ingredient_to_catalogue, if_neg hr] at hry
      rcases List.mem_cons.1 hry with hry | hry
      · rw [hry]
        exact hokr
      · exact add_ing_catok rest ing rnom hokrest ry hry

/-! ## Concrete inputs used by the claims -/

/-- Input exhibiting secondary-key aliasing in `merge_ingredients`: the
literal name `a_g` collides with the secondary key of name `a`, unit `g`. -/
def exAlias : List Ing :=
  [⟨"a", "R", 1, "pièce"⟩, ⟨"a", "R", 2, "g"⟩, ⟨"a_g", "R", 5, "g"⟩]

def exCarrots : List Ing :=
  [⟨"Carrots", "Vegetables", 300, "g"⟩, ⟨"Carrots", "Vegetables", 150, "g"⟩]

def exCarrotsRev : List Ing :=
  [⟨"Carrots", "Vegetables", 150, "g"⟩, ⟨"Carrots", "Vegetables", 300, "g"⟩]

def exCaseA : List Ing := [⟨"Milk", "R", 1, "L"⟩, ⟨"MILK", "R", 1, "L"⟩]

def exCaseB : List Ing := [⟨"MILK", "R", 1, "L"⟩, ⟨"Milk", "R", 1, "L"⟩]

def exThree : List Ing :=
  [⟨"a", "R", 1, "g"⟩, ⟨"a", "R", 2, "kg"⟩, ⟨"a", "R", 3, "ml"⟩]

def exMilk : List Ing :=
  [⟨"Milk", "Dairy", 1, "L"⟩, ⟨"Milk", "Dairy", 500, "ml"⟩]

def exRecW : List (String × List Item) :=
  [(("FROMAGES"), [(("Comté"), 2, ("pièce"))]),
   (("RAYON MYSTÈRE"), [(("Truc"), 1, ("pièce"))])]

def exFreeW : List (String × List Item) :=
  [(("BOULANGERIE"), [(("Pain"), 1, ("pièce"))])]

def itMilkW : Item := (("Milk"), 2, ("L"))

def itJuiceW : Item := (("Juice"), 1, ("L"))

def secW : String × List Item := (("Dairy"), [itMilkW, itJuiceW])

def flW : List (String × List Item) := [secW]

def stW : List (String × List Item) :=
  [(("Dairy"), [(("Milk"), 1, ("L")), (("Juice"), 5, ("cl"))])]

def catW : List Rayon := [⟨"Dairy", ["Milk", "Yogurt"]⟩]

def itMW : Item := (("Milk"), 2, ("L"))

/-! ## Claims -/

/-- C1: for inputs whose lowercased names contain no underscore, the
merged quantity for each (lowercased name, section, unit) combination
equals the sum of the input quantities of that combination; and for every
input, the grand total of output quantities equals the grand total of
input quantities, so no occurrence is silently dropped.  (The
per-combination part does not hold for arbitrary names — see the
counterexample.) -/
theorem C1_sum_preservation (l : List Ing) :
    (GoodL l → ∀ n r u : String,
      sumOut (merge_ingredients l) n r u = sumIn l n r u) ∧
    totalOut (merge_ingredients l) = totalIn l :=
  ⟨fun hg n r u => merge_sumOut hg n r u, merge_total l⟩

/-- C1 counterexample: with the literal name `a_g` aliasing the secondary
key of (`a`, unit `g`), the output quantity for (`a`, `R`, `g`) is 7
while the input sum for that combination is 2 — per-combination sum
preservation fails as universally claimed. -/
theorem C1_counterexample :
    sumOut (merge_ingredients exAlias) ("a") ("R") ("g") = 7 ∧
    sumIn exAlias ("a") ("R") ("g") = 2 ∧
    sumOut (merge_ingredients exAlias) ("a") ("R") ("g") ≠
      sumIn exAlias ("a") ("R") ("g") := by decide

theorem C1_witness :
    sumOut (merge_ingredients exCarrots) ("carrots") ("Vegetables") ("g") =
      sumIn exCarrots ("carrots") ("Vegetables") ("g") ∧
    totalOut (merge_ingredients exCarrots) = totalIn exCarrots :=
  ⟨(C1_sum_preservation exCarrots).1 (by decide) ("carrots") ("Vegetables")
    ("g"), (C1_sum_preservation exCarrots).2⟩

/-- C2: for inputs whose lowercased names contain no underscore, the
number of output entries for a (lowercased name, section) pair equals the
number of distinct units among that pair's input occurrences; in
particular occurrences with the same name and section but different units
never collapse.  (Fails for arbitrary names — see the counterexample.) -/
theorem C2_unit_isolation (l : List Ing) (hg : GoodL l) (n r : String) :
    countOut (merge_ingredients l) n r = unitCount l n r :=
  merge_countOut hg n r

/-- C2 counterexample: the occurrence named `a_g` (one distinct unit) is
absorbed into the bucket of name `a`, so its (name, section) pair yields
zero output entries instead of one. -/
theorem C2_counterexample :
    countOut (merge_ingredients exAlias) ("a_g") ("R") = 0 ∧
    unitCount exAlias ("a_g") ("R") = 1 := by decide

theorem C2_witness :
    countOut (merge_ingredients exMilk) ("milk") ("Dairy") =
      unitCount exMilk ("milk") ("Dairy") :=
  C2_unit_isolation exMilk (by decide) ("milk") ("Dairy")

/-- C3: for inputs whose lowercased names contain no underscore, permuted
inputs produce the same set of sections and, per section, the same
multiset of entries compared case-insensitively on the name.  (With the
displayed casing included, the claim fails — see the counterexample.) -/
theorem C3_commutative (l l' : List Ing) (hg : GoodL l)
    (hp : List.Perm l l') :
    (∀ r, sectionMem (merge_ingredients l) r ↔
      sectionMem (merge_ingredients l') r) ∧
    (∀ r, List.Perm (entriesLow (merge_ingredients l) r)
      (entriesLow (merge_ingredients l') r)) := by
  have hg' : GoodL l' := fun i hi => hg i (hp.mem_iff.2 hi)
  constructor
  · intro r
    rw [merge_section_iff_input hg r, merge_section_iff_input hg' r]
    constructor
    · rintro ⟨i, hi, hr⟩
      exact ⟨i, hp.mem_iff.1 hi, hr⟩
    · rintro ⟨i, hi, hr⟩
      exact ⟨i, hp.mem_iff.2 hi, hr⟩
  · intro r
    exact merge_entriesLow_perm hg hp r

/-- C3 counterexample: permuting `Milk`/`MILK` changes which casing is
displayed, so the multiset of (name, quantity, unit) entries differs
between the two permuted runs. -/
theorem C3_counterexample :
    List.Perm exCaseA exCaseB ∧
    merge_ingredients exCaseA = [(("R"), [(("Milk"), 2, ("L"))])] ∧
    merge_ingredients exCaseB = [(("R"), [(("MILK"), 2, ("L"))])] ∧
    ¬ List.Perm (itemsOf (merge_ingredients exCaseA) ("R"))
      (itemsOf (merge_ingredients exCaseB) ("R")) := by decide

theorem C3_witness :
    (sectionMem (merge_ingredients exCarrots) ("Vegetables") ↔
      sectionMem (merge_ingredients exCarrotsRev) ("Vegetables")) ∧
    List.Perm (entriesLow (merge_ingredients exCarrots) ("Vegetables"))
      (entriesLow (merge_ingredients exCarrotsRev) ("Vegetables")) :=
  ⟨(C3_commutative exCarrots exCarrotsRev (by decide) (by decide)).1
      ("Vegetables"),
    (C3_commutative exCarrots exCarrotsRev (by decide) (by decide)).2
      ("Vegetables")⟩

/-- C4: the Stock Subtractor coincides with the specified per-item case
analysis — no stock entry → unchanged; matching unit → subtract and keep
exactly when the remainder is strictly positive, drop when it is zero or
negative; different unit → unchanged — with sections whose items all drop
out omitted from the result. -/
theorem C4_subtract_policy (final_list stock_items :
    List (String × List Item)) :
    subtract_stock final_list stock_items =
      subtract_stock_spec final_list stock_items :=
  subtract_stock_eq final_list stock_items

/-- C5: on a built list with all-positive quantities, every output
quantity of the Stock Subtractor is strictly positive, and no item whose
stock entry is absent or carries a non-matching unit is ever removed. -/
theorem C5_subtract_invariant (fl s : List (String × List Item))
    (hpos : AllPos fl) :
    AllPos (subtract_stock fl s) ∧
    (∀ p ∈ fl, ∀ it ∈ p.2,
      (∀ st, alookup (buildStockIndex s) (strLower it.1, p.1) = some st →
        st.unite ≠ it.2.2) →
      ∃ its, (p.1, its) ∈ subtract_stock fl s ∧ it ∈ its) :=
  ⟨subtract_stock_pos hpos,
    fun _ hp _ hit hm => subtract_stock_keeps hp hit hm⟩

theorem C5_witness :
    AllPos (subtract_stock flW stW) ∧
    ∃ its, (secW.1, its) ∈ subtract_stock flW stW ∧ itJuiceW ∈ its :=
  ⟨(C5_subtract_invariant flW stW (by decide)).1,
    (C5_subtract_invariant flW stW (by decide)).2 secW (by decide) itJuiceW
      (by decide)
      (fun st hst => by
        have h0 : alookup (buildStockIndex stW)
            (strLower itJuiceW.1, secW.1) = some (⟨5, ("cl")⟩ : SEntry) := by
          decide
        rw [h0] at hst
        injection hst with h
        rw [← h]
        decide)⟩

/-- C6: in every built list, canonical sections come first in the order
of the 18-entry `rayon_order`, followed by the remaining sections in
alphabetical (code-point) order; concretely, with items in FROMAGES
(cheese), BOULANGERIE (bakery) and an unknown section, the output orders
BOULANGERIE before FROMAGES before the unknown section. -/
theorem C6_section_order :
    (∀ rec free : List (String × List Item),
      List.Pairwise sectRel ((build_final_list rec free).map Prod.fst)) ∧
    rayon_order.length = 18 ∧
    (build_final_list exRecW exFreeW).map Prod.fst =
      [("BOULANGERIE"), ("FROMAGES"), ("RAYON MYSTÈRE")] :=
  ⟨build_final_pairwise, by decide, by decide⟩

/-- C7: the Catalogue Updater is idempotent — a second call with the same
arguments reports a no-op (`false`) and leaves the catalogue exactly as
after the first call — and it never introduces a case-insensitive
duplicate article within a section. -/
theorem C7_idempotent (cat : List Rayon) (ing rnom : String) :
    add_ingredient_to_catalogue
        (add_ingredient_to_catalogue cat ing rnom).2 ing rnom =
      (false, (add_ingredient_to_catalogue cat ing rnom).2) ∧
    (CatOk cat → CatOk (add_ingredient_to_catalogue cat ing rnom).2) :=
  ⟨add_ing_idem cat ing rnom, add_ing_catok cat ing rnom⟩

theorem C7_witness :
    add_ingredient_to_catalogue
        (add_ingredient_to_catalogue catW ("cheese") ("Dairy")).2
        ("cheese") ("Dairy") =
      (false, (add_ingredient_to_catalogue catW ("cheese") ("Dairy")).2) ∧
    CatOk (add_ingredient_to_catalogue catW ("cheese") ("Dairy")).2 :=
  ⟨(C7_idempotent catW ("cheese") ("Dairy")).1,
    (C7_idempotent catW ("cheese") ("Dairy")).2 (by decide)⟩

/-- C8: the stock index keys stock by (lowercased name, section); a fresh
key is appended with the entry's quantity and unit, a duplicate with a
matching unit has the quantities summed (keeping the stored unit), and a
duplicate with a different unit overwrites the recorded quantity and unit
entirely; other keys are untouched. -/
theorem C8_stock_indexing (idx : List (Key × SEntry)) (rayon nom : String)
    (q : Int) (u : String) :
    (alookup idx (strLower nom, rayon) = none →
      stockStep idx rayon ((nom, q, u)) =
        idx ++ [((strLower nom, rayon), ⟨q, u⟩)]) ∧
    (∀ st, alookup idx (strLower nom, rayon) = some st → st.unite = u →
      alookup (stockStep idx rayon ((nom, q, u))) (strLower nom, rayon) =
        some ⟨st.quantite + q, st.unite⟩ ∧
      ∀ k', k' ≠ (strLower nom, rayon) →
        alookup (stockStep idx rayon ((nom, q, u))) k' = alookup idx k') ∧
    (∀ st, alookup idx (strLower nom, rayon) = some st → st.unite ≠ u →
      alookup (stockStep idx rayon ((nom, q, u))) (strLower nom, rayon) =
        some ⟨q, u⟩ ∧
      ∀ k', k' ≠ (strLower nom, rayon) →
        alookup (stockStep idx rayon ((nom, q, u))) k' = alookup idx k') := by
  refine ⟨?_, ?_, ?_⟩
  · intro h
    simp only [stockStep, h]
  · intro st hst hu
    constructor
    · simp only [stockStep, hst, if_pos hu]
      exact alookup_aset_self _ hst
    · intro k' hk'
      simp only [stockStep, hst, if_pos hu]
      exact alookup_aset_ne hk'
  · intro st hst hu
    constructor
    · simp only [stockStep, hst, if_neg hu]
      exact alookup_aset_self _ hst
    · intro k' hk'
      simp only [stockStep, hst, if_neg hu]
      exact alookup_aset_ne hk'

theorem C8_witness :
    stockStep ([] : List (Key × SEntry)) ("Dairy") ((("Milk"), 2, ("L"))) =
      [((strLower ("Milk"), ("Dairy")), ⟨2, ("L")⟩)] :=
  (C8_stock_indexing [] ("Dairy") ("Milk") 2 ("L")).1 (by decide)

/-- C9 counterexample: three distinct units for the same name and section
produce three separate, correctly summed entries — the third unit neither
overwrites nor misfiles relative to the second, contrary to the claimed
two-unit limitation. -/
theorem C9_counterexample :
    merge_ingredients exThree =
      [(("R"), [(("a"), 1, ("g")), (("a"), 2, ("kg")), (("a"), 3, ("ml"))])] ∧
    countOut (merge_ingredients exThree) ("a") ("R") = 3 ∧
    unitCount exThree ("a") ("R") = 3 := by decide

/-- C9: any number of distinct units can coexist for one base name within
a section (underscore-free lowercased names): with exactly three distinct
units among the occurrences of a (name, section) pair, the output has
exactly three entries for that pair, one per unit. -/
theorem C9_third_unit (l : List Ing) (hg : GoodL l) (n r : String)
    (h3 : unitCount l n r = 3) :
    countOut (merge_ingredients l) n r = 3 := by
  rw [merge_countOut hg n r, h3]

theorem C9_witness : countOut (merge_ingredients exThree) ("a") ("R") = 3 :=
  C9_third_unit exThree (by decide) ("a") ("R") (by decide)

/-- C10: each output entry of the Merger displays the name — with its
original casing — of the first input occurrence carrying the entry's
(lowercased name, section, unit) identity; merging later occurrences
changes only quantities.  Concretely, permuting `Milk`/`MILK` flips the
displayed casing even though deduplication is case-insensitive. -/
theorem C10_first_casing :
    (∀ (l : List Ing) (r : String) (its : List Item) (it : Item),
      (r, its) ∈ merge_ingredients l → it ∈ its →
      ∃ i, l.find?
          (fun j => decide (tripleOf j = (strLower it.1, r, it.2.2))) =
          some i ∧ i.nom = it.1) ∧
    merge_ingredients exCaseA = [(("R"), [(("Milk"), 2, ("L"))])] ∧
    merge_ingredients exCaseB = [(("R"), [(("MILK"), 2, ("L"))])] :=
  ⟨fun _ _ _ _ h1 h2 => merge_firstNom h1 h2, by decide, by decide⟩

theorem C10_witness :
    ∃ i, exCaseA.find?
        (fun j => decide (tripleOf j = (strLower itMW.1, ("R"), itMW.2.2))) =
        some i ∧ i.nom = itMW.1 :=
  C10_first_casing.1 exCaseA ("R") [itMW] itMW (by decide) (by decide)

end CoursesApp
